import Mathlib

/-!
Verification of the dpwh-flood-audit screening core (src/dpwhlib) against its
natural-language specification.

The development shallowly embeds the Python source:

* strings are Lean `String`s (the data is ASCII; `Char.toLower` agrees with
  Python `str.lower` there);
* pandas/NumPy floats are modelled as `ℚ`, with missing values (`NaN`) as
  `Option`; dates are day numbers (`ℤ`), with `pd.Timestamp.now()` an explicit
  `now : ℤ` parameter;
* the rapidfuzz scorer `fuzz.token_set_ratio` is an external library; it enters
  the embedding as an abstract parameter `sim : String → String → ℚ`
  (0..100-valued, symmetric), so theorems about the flag engine hold for every
  such scorer, in particular the real one;
* the set `GENERIC_PHRASES` is iterated by `_strip_generic_phrases` in Python
  set order, which is not fixed across processes; the iteration order is the
  explicit parameter `po : List String`;
* `difflib.SequenceMatcher` (used by `textutils.seq_ratio`) is modelled by its
  documented algorithm: repeatedly take the longest matching block, earliest
  in the first string and then in the second (no junk heuristic: the inputs of
  interest are far below the autojunk cutoff of 200 characters).
-/

namespace DpwhAudit

/-! ## Text normalisation (`flags._norm_text`, `_tokenize`, `_strip_generic_phrases`) -/

/-- Characters kept by the character whitelist of `_norm_text` (lowercase
letters, digits, whitespace, and the punctuation - / , _ ( ) & .). -/
def normAllowed (c : Char) : Bool :=
  (('a' ≤ c && c ≤ 'z') || ('0' ≤ c && c ≤ '9') || c.isWhitespace ||
    (c = '-' || c = '/' || c = ',' || c = '_' || c = '(' || c = ')' || c = '&' || c = '.'))

/-- Split a character list into the maximal runs separated by characters
satisfying `p`; empty runs are dropped.  Together with joining by a single
space this implements `re.sub(r"\s+", " ", s).strip()`. -/
def runsBy (p : Char → Bool) (l : List Char) : List (List Char) :=
  (l.splitOnP p).filter (fun w => !w.isEmpty)

/-- Join character runs with single spaces. -/
def joinSp (ws : List (List Char)) : List Char :=
  List.intercalate [' '] ws

/-- Collapse whitespace runs to one space and trim both ends
(`re.sub(r"\s+", " ", s).strip()`). -/
def collapseWs (l : List Char) : List Char :=
  joinSp (runsBy Char.isWhitespace l)

/-- `flags._norm_text`: lowercase, replace characters outside the whitelist by a
space, collapse whitespace, strip. -/
def normText (s : String) : String :=
  String.mk (collapseWs ((s.data.map Char.toLower).map (fun c => if normAllowed c then c else ' ')))

/-- `flags.STOP_TOKENS`. -/
def STOP_TOKENS : List String :=
  ["the", "of", "and", "for", "to", "in", "a", "an", "phase", "package", "lot",
   "section", "stage", "barangay", "brgy", "city", "municipality", "province",
   "region", "lgu", "dpwh", "river", "creek", "canal", "drainage"]

/-- `flags.GENERIC_PHRASES`, in source-listing order.  Python iterates this set
in a process-dependent order; functions that iterate it take the order as an
explicit argument, for which this list is one possible value. -/
def GENERIC_PHRASES : List String :=
  ["construction of", "rehabilitation of", "improvement of", "repair of",
   "construction", "rehabilitation", "improvement", "repair",
   "flood control", "flood control structure", "river control", "slope protection",
   "revetment", "desilting", "dredging", "riprap", "drainage"]

/-- Word characters of the regex `\w` (`re.split(r"[^\w]+", s)`). -/
def isWordChar (c : Char) : Bool :=
  ('a' ≤ c && c ≤ 'z') || ('A' ≤ c && c ≤ 'Z') || ('0' ≤ c && c ≤ '9') || c = '_'

/-- `flags._tokenize`: normalise, split on non-word characters, drop stop
tokens. -/
def tokenize (s : String) : List String :=
  ((runsBy (fun c => !isWordChar c) (normText s).data).map String.mk).filter
    (fun t => !STOP_TOKENS.contains t)

/-- Does `l` start with `pat`? -/
def startsWithL : List Char → List Char → Bool
  | [], _ => true
  | _ :: _, [] => false
  | p :: ps, c :: cs => p = c && startsWithL ps cs

/-- Fuel-indexed worker for `replaceAll`; the fuel bounds the number of scan
steps, one character (or one matched pattern) per step, so `l.length` fuel
always suffices. -/
def replaceAllF (pat rep : List Char) : Nat → List Char → List Char
  | 0, l => l
  | _ + 1, [] => []
  | fuel + 1, c :: rest =>
    if pat.length = 0 then c :: rest
    else if startsWithL pat (c :: rest) then
      rep ++ replaceAllF pat rep fuel ((c :: rest).drop pat.length)
    else
      c :: replaceAllF pat rep fuel rest

/-- Python `str.replace(pat, rep)`: replace every non-overlapping occurrence,
scanning left to right. -/
def replaceAll (pat rep l : List Char) : List Char :=
  replaceAllF pat rep l.length l

/-- `flags._strip_generic_phrases`, with the Python set-iteration order of
`GENERIC_PHRASES` made explicit as `po`. -/
def stripGeneric (po : List String) (s : String) : String :=
  String.mk (collapseWs (po.foldl (fun acc p => replaceAll p.data [' '] acc) (normText s).data))

/-- Python substring containment (`in` / `str.contains` with a literal
pattern). -/
def containsL (pat : List Char) : List Char → Bool
  | [] => startsWithL pat []
  | c :: rest => startsWithL pat (c :: rest) || containsL pat rest

/-- Substring test on strings. -/
def strContains (s pat : String) : Bool := containsL pat.data s.data

/-- Python `str.lower`. -/
def lowerStr (s : String) : String := String.mk (s.data.map Char.toLower)

/-- Python `str.strip` (trim leading and trailing whitespace). -/
def stripStr (s : String) : String :=
  String.mk ((s.data.dropWhile Char.isWhitespace).reverse.dropWhile Char.isWhitespace |>.reverse)

example : normText "  Construction of DIKE, Phase 1!!" = "construction of dike, phase 1" := by decide
example : tokenize "construction of dike phase 1" = ["construction", "dike", "1"] := by decide
example : stripGeneric GENERIC_PHRASES "Construction of Flood Control Structure" = "structure" := by decide
example : strContains "100% complete na" "complete" = true := by decide
example : stripStr "  abc  " = "abc" := by decide

/-! ## Numeric helpers: Python `round`, NumPy/pandas quantiles, sample variance -/

/-- Python `round` on a rational: round half to even. -/
def pyRound (q : ℚ) : ℤ :=
  let f := ⌊q⌋
  let r := q - (f : ℚ)
  if r < 1 / 2 then f
  else if 1 / 2 < r then f + 1
  else if 2 ∣ f then f else f + 1

theorem pyRound_ge_floor (q : ℚ) : ⌊q⌋ ≤ pyRound q := by
  unfold pyRound
  dsimp only
  split <;> [skip; split <;> [skip; split]] <;> omega

theorem pyRound_le_floor_add_one (q : ℚ) : pyRound q ≤ ⌊q⌋ + 1 := by
  unfold pyRound
  dsimp only
  split <;> [skip; split <;> [skip; split]] <;> omega

/-- `pyRound` is monotone; the redundancy threshold therefore rises with the
similarity parameter. -/
theorem pyRound_mono {p q : ℚ} (h : p ≤ q) : pyRound p ≤ pyRound q := by
  rcases lt_or_eq_of_le (Int.floor_le_floor h) with hf | hf
  · calc pyRound p ≤ ⌊p⌋ + 1 := pyRound_le_floor_add_one p
      _ ≤ ⌊q⌋ := by omega
      _ ≤ pyRound q := pyRound_ge_floor q
  · unfold pyRound
    dsimp only
    rw [hf]
    have hr : p - ((⌊q⌋ : ℤ) : ℚ) ≤ q - ((⌊q⌋ : ℤ) : ℚ) := by linarith
    by_cases h1 : p - ((⌊q⌋ : ℤ) : ℚ) < 1 / 2
    · rw [if_pos h1]
      split <;> [skip; split <;> [skip; split]] <;> omega
    · rw [if_neg h1]
      have h2 : ¬ q - ((⌊q⌋ : ℤ) : ℚ) < 1 / 2 := fun hc => h1 (lt_of_le_of_lt hr hc)
      rw [if_neg h2]
      by_cases h3 : 1 / 2 < p - ((⌊q⌋ : ℤ) : ℚ)
      · have h4 : 1 / 2 < q - ((⌊q⌋ : ℤ) : ℚ) := lt_of_lt_of_le h3 hr
        rw [if_pos h3, if_pos h4]
      · rw [if_neg h3]
        by_cases h4 : 1 / 2 < q - ((⌊q⌋ : ℤ) : ℚ)
        · rw [if_pos h4]
          split <;> omega
        · rw [if_neg h4]

/-- Sort a rational list ascending (`np.sort` / pandas sorting before
interpolation). -/
def sortQ (l : List ℚ) : List ℚ := List.insertionSort (· ≤ ·) l

theorem sortQ_sorted (l : List ℚ) : (sortQ l).Sorted (· ≤ ·) :=
  List.sorted_insertionSort (· ≤ ·) l

theorem sortQ_perm (l : List ℚ) : (sortQ l).Perm l := List.perm_insertionSort _ l

theorem sortQ_length (l : List ℚ) : (sortQ l).length = l.length :=
  (sortQ_perm l).length_eq

/-- Linear-interpolation quantile of an already sorted nonempty list at
`p ∈ [0,1]`: the scheme of `np.percentile` / `pandas.Series.quantile`
(method "linear"): with `h = p*(n-1)`, `i = ⌊h⌋` and `g = h - i`, the value is
`xs[i] + g*(xs[i+1] - xs[i])`. -/
def quantileSorted (xs : List ℚ) (p : ℚ) : ℚ :=
  let n := xs.length
  let h : ℚ := p * ((n : ℚ) - 1)
  let i : ℕ := (⌊h⌋).toNat
  let g : ℚ := h - ((⌊h⌋ : ℤ) : ℚ)
  xs.getD i 0 + g * (xs.getD (i + 1) (xs.getD i 0) - xs.getD i 0)

/-- Quantile of an unsorted list (`pandas.Series.quantile`). -/
def quantileQ (l : List ℚ) (p : ℚ) : ℚ := quantileSorted (sortQ l) p

/-- `np.nanpercentile(values, q)` over the non-missing values, `q` in 0..100. -/
def nanpercentile (l : List ℚ) (q : ℚ) : ℚ := quantileQ l (q / 100)

/-- Mean of a rational list. -/
def meanQ (l : List ℚ) : ℚ := l.sum / l.length

/-- pandas sample variance (`ddof=1`); `none` when fewer than two samples
(where pandas yields `NaN`). -/
def varQ (l : List ℚ) : Option ℚ :=
  if 2 ≤ l.length then
    some ((l.map (fun x => (x - meanQ l) ^ 2)).sum / ((l.length : ℚ) - 1))
  else none

theorem varQ_nonneg {l : List ℚ} {v : ℚ} (h : varQ l = some v) : 0 ≤ v := by
  unfold varQ at h
  split at h
  · rename_i hlen
    simp only [Option.some.injEq] at h
    subst h
    have hsum : 0 ≤ (l.map (fun x => (x - meanQ l) ^ 2)).sum := by
      apply List.sum_nonneg
      intro x hx
      obtain ⟨y, _, rfl⟩ := List.mem_map.mp hx
      positivity
    have hden : (0 : ℚ) ≤ (l.length : ℚ) - 1 := by
      have h2 : (2 : ℚ) ≤ (l.length : ℚ) := by exact_mod_cast hlen
      linarith
    exact div_nonneg hsum hden
  · exact absurd h (by simp)

theorem sorted_getD_mono {xs : List ℚ} (hs : xs.Sorted (· ≤ ·)) {a b : ℕ}
    (hab : a ≤ b) (hb : b < xs.length) {d e : ℚ} : xs.getD a d ≤ xs.getD b e := by
  have ha : a < xs.length := lt_of_le_of_lt hab hb
  rw [List.getD_eq_getElem xs d ha, List.getD_eq_getElem xs e hb]
  have := List.Sorted.rel_get_of_le hs (a := ⟨a, ha⟩) (b := ⟨b, hb⟩) (Fin.mk_le_mk.mpr hab)
  simpa [List.get_eq_getElem] using this

theorem interp_mono {xs : List ℚ} (hs : xs.Sorted (· ≤ ·)) {i1 i2 : ℕ} {g1 g2 : ℚ}
    (hi2 : i2 < xs.length) (_hg1 : 0 ≤ g1) (hg1' : g1 ≤ 1) (hg2 : 0 ≤ g2)
    (hcase : i1 < i2 ∨ (i1 = i2 ∧ g1 ≤ g2)) :
    xs.getD i1 0 + g1 * (xs.getD (i1 + 1) (xs.getD i1 0) - xs.getD i1 0) ≤
      xs.getD i2 0 + g2 * (xs.getD (i2 + 1) (xs.getD i2 0) - xs.getD i2 0) := by
  have hdiff : ∀ j : ℕ, j < xs.length → xs.getD j 0 ≤ xs.getD (j + 1) (xs.getD j 0) := by
    intro j hj
    by_cases hb : j + 1 < xs.length
    · exact sorted_getD_mono hs (Nat.le_succ j) hb
    · rw [@List.getD_eq_default ℚ xs (xs.getD j 0) (j + 1) (by omega)]
  rcases hcase with hlt | ⟨rfl, hgg⟩
  · have hb1 : i1 + 1 ≤ i2 := hlt
    have hb1' : i1 + 1 < xs.length := lt_of_le_of_lt hb1 hi2
    have hi1 : i1 < xs.length := by omega
    have step1 : xs.getD i1 0 + g1 * (xs.getD (i1 + 1) (xs.getD i1 0) - xs.getD i1 0) ≤
        xs.getD (i1 + 1) (xs.getD i1 0) := by
      have hd := hdiff i1 hi1
      nlinarith
    have step2 : xs.getD (i1 + 1) (xs.getD i1 0) ≤ xs.getD i2 0 :=
      sorted_getD_mono hs hb1 hi2
    have step3 : xs.getD i2 0 ≤
        xs.getD i2 0 + g2 * (xs.getD (i2 + 1) (xs.getD i2 0) - xs.getD i2 0) := by
      have hd := hdiff i2 hi2
      nlinarith
    linarith
  · have hd := hdiff i1 hi2
    nlinarith

/-- The interpolated quantile is monotone in the probability, on a sorted
nonempty list. -/
theorem quantileSorted_mono {xs : List ℚ} (hs : xs.Sorted (· ≤ ·)) (hne : xs ≠ [])
    {p p' : ℚ} (hp0 : 0 ≤ p) (hpp : p ≤ p') (hp1 : p' ≤ 1) :
    quantileSorted xs p ≤ quantileSorted xs p' := by
  have hn : 1 ≤ xs.length := List.length_pos.mpr hne
  have hco : (0 : ℚ) ≤ (xs.length : ℚ) - 1 := by
    have h1 : (1 : ℚ) ≤ (xs.length : ℚ) := by exact_mod_cast hn
    linarith
  have h12 : p * ((xs.length : ℚ) - 1) ≤ p' * ((xs.length : ℚ) - 1) :=
    mul_le_mul_of_nonneg_right hpp hco
  have h10 : 0 ≤ p * ((xs.length : ℚ) - 1) := mul_nonneg hp0 hco
  have h20 : 0 ≤ p' * ((xs.length : ℚ) - 1) := le_trans h10 h12
  have h2top : p' * ((xs.length : ℚ) - 1) ≤ (xs.length : ℚ) - 1 := by
    calc p' * ((xs.length : ℚ) - 1) ≤ 1 * ((xs.length : ℚ) - 1) :=
          mul_le_mul_of_nonneg_right hp1 hco
      _ = (xs.length : ℚ) - 1 := one_mul _
  have hf1 : 0 ≤ ⌊p * ((xs.length : ℚ) - 1)⌋ := Int.le_floor.mpr (by exact_mod_cast h10)
  have hf2 : 0 ≤ ⌊p' * ((xs.length : ℚ) - 1)⌋ := Int.le_floor.mpr (by exact_mod_cast h20)
  have hf12 : ⌊p * ((xs.length : ℚ) - 1)⌋ ≤ ⌊p' * ((xs.length : ℚ) - 1)⌋ :=
    Int.floor_le_floor h12
  have hf2top : ⌊p' * ((xs.length : ℚ) - 1)⌋ < (xs.length : ℤ) := by
    apply Int.floor_lt.mpr
    push_cast
    linarith
  have hc2 : ((⌊p' * ((xs.length : ℚ) - 1)⌋.toNat : ℤ)) = ⌊p' * ((xs.length : ℚ) - 1)⌋ :=
    Int.toNat_of_nonneg hf2
  have hc1 : ((⌊p * ((xs.length : ℚ) - 1)⌋.toNat : ℤ)) = ⌊p * ((xs.length : ℚ) - 1)⌋ :=
    Int.toNat_of_nonneg hf1
  have hi2 : ⌊p' * ((xs.length : ℚ) - 1)⌋.toNat < xs.length := by omega
  have hii : ⌊p * ((xs.length : ℚ) - 1)⌋.toNat ≤ ⌊p' * ((xs.length : ℚ) - 1)⌋.toNat :=
    Int.toNat_le_toNat hf12
  unfold quantileSorted
  dsimp only
  apply interp_mono hs hi2
  · have := Int.floor_le (p * ((xs.length : ℚ) - 1))
    linarith
  · have := Int.lt_floor_add_one (p * ((xs.length : ℚ) - 1))
    linarith
  · have := Int.floor_le (p' * ((xs.length : ℚ) - 1))
    linarith
  · rcases lt_or_eq_of_le hii with hlt | heq
    · exact Or.inl hlt
    · refine Or.inr ⟨heq, ?_⟩
      have heqz : ⌊p * ((xs.length : ℚ) - 1)⌋ = ⌊p' * ((xs.length : ℚ) - 1)⌋ := by omega
      rw [heqz]
      linarith

/-! ## Data model

A `Rec` is one row of the preprocessed dataset (`preprocess_projects` output):
derived helper columns are fields, missing values are `none`, dates are day
numbers.  `titleNA` records whether the raw title cell is missing (`pd.isna`);
in that case `title` holds the string `"nan"` that `astype(str)` produces.
`ColMap` records which semantic roles resolved to a column (`colmap` entries
being non-`None`); `Config` holds the tunable thresholds of
`compute_project_flags_fast`. -/

structure Rec where
  title : String := ""
  titleNA : Bool := false
  areaKey : String := ""
  year : Option ℤ := none
  statusStr : String := ""
  accompPct : Option ℚ := none
  amount : Option ℚ := none
  startDate : Option ℤ := none
  endDate : Option ℤ := none
  targetDate : Option ℤ := none
  durationDays : Option ℤ := none
  costPerKm : Option ℚ := none
  costPerSqKm : Option ℚ := none
deriving DecidableEq, Inhabited

structure ColMap where
  titleCol : Bool := false
  statusCol : Bool := false
  startCol : Bool := false
  endCol : Bool := false
  targetCol : Bool := false
deriving DecidableEq, Inhabited

structure Config where
  redundantSimilarity : ℚ := 7 / 10
  ghostHighAmountPct : ℚ := 75
  neverEndingDays : ℤ := 730
  costIqrK : ℚ := 3 / 2
  useTargetOverrun : Bool := true
  graceDays : ℤ := 60
deriving DecidableEq, Inhabited

/-! ## Potential-Ghost stage (`compute_project_flags_fast`, flags.py 250-290) -/

/-- Non-missing amounts of the dataset (`df["__Amount"].dropna()`). -/
def amountsOf (ds : List Rec) : List ℚ := ds.filterMap Rec.amount

/-- `amt_hi`: the high-amount percentile cutoff, `NaN` (`none`) when every
amount is missing. -/
def amtHi (ds : List Rec) (cfg : Config) : Option ℚ :=
  if amountsOf ds = [] then none
  else some (nanpercentile (amountsOf ds) cfg.ghostHighAmountPct)

/-- `status_vals`: lowercased and stripped status text, or `""` when no status
column resolved. -/
def statusValsOf (cm : ColMap) (r : Rec) : String :=
  if cm.statusCol then stripStr (lowerStr r.statusStr) else ""

/-- `completeish`: status text contains "complete", or accomplishment
percentage (missing treated as 0) is at least 99. -/
def completeish (cm : ColMap) (r : Rec) : Bool :=
  strContains (statusValsOf cm r) "complete" || decide (99 ≤ r.accompPct.getD 0)

/-- `has_start`. -/
def hasStart (cm : ColMap) (r : Rec) : Bool := cm.startCol && r.startDate.isSome

/-- `has_end`. -/
def hasEnd (cm : ColMap) (r : Rec) : Bool := cm.endCol && r.endDate.isSome

/-- `dur_days` of the ghost stage: end minus start when both columns resolved
(recomputed there, not the preprocessed `__DurationDays`). -/
def durGhost (cm : ColMap) (r : Rec) : Option ℤ :=
  if cm.startCol && cm.endCol then
    match r.startDate, r.endDate with
    | some s, some e => some (e - s)
    | _, _ => none
  else none

/-- `very_short`: duration under 7 days (`NaN < 7` is false). -/
def veryShort (cm : ColMap) (r : Rec) : Bool :=
  match durGhost cm r with
  | some d => decide (d < 7)
  | none => false

/-- `high_amt`: amount at or above the percentile cutoff; false when either is
missing (`np.isfinite(amt_hi)` guard and `NaN >= x` being false). -/
def highAmt (ds : List Rec) (cfg : Config) (r : Rec) : Bool :=
  match r.amount, amtHi ds cfg with
  | some a, some hi => decide (hi ≤ a)
  | _, _ => false

/-- `long_open`: more than 730 days elapsed since the start date. -/
def longOpen (cm : ColMap) (now : ℤ) (r : Rec) : Bool :=
  cm.startCol &&
    match r.startDate with
    | some s => decide (730 < now - s)
    | none => false

/-- `no_dates`. -/
def noDates (cm : ColMap) (r : Rec) : Bool := !hasStart cm r && !hasEnd cm r

/-- `past` of the target-overrun rule: a target date exists and more than
`grace_days` have elapsed past it. -/
def pastTarget (cm : ColMap) (cfg : Config) (now : ℤ) (r : Rec) : Bool :=
  cm.targetCol &&
    match r.targetDate with
    | some t => decide (cfg.graceDays < now - t)
    | none => false

/-- `overrun = past & (~completeish | ~has_end)`, gated by
`use_target_overrun and target_col`. -/
def overrun (cm : ColMap) (cfg : Config) (now : ℤ) (r : Rec) : Bool :=
  cfg.useTargetOverrun && pastTarget cm cfg now r &&
    (!completeish cm r || !hasEnd cm r)

/-- `FLAG_PotentialGhost` (flags.py 273-279). -/
def ghostFlag (ds : List Rec) (cm : ColMap) (cfg : Config) (now : ℤ) (r : Rec) : Bool :=
  (completeish cm r && !hasEnd cm r) ||
  (completeish cm r && veryShort cm r && highAmt ds cfg r) ||
  (longOpen cm now r && !hasEnd cm r) ||
  (noDates cm r && highAmt ds cfg r) ||
  overrun cm cfg now r

/-- The five ghost conditions exactly as the specification words them; in
condition (e) the record must be "not complete", with no mention of the end
date. -/
def specGhostProp (ds : List Rec) (cm : ColMap) (cfg : Config) (now : ℤ) (r : Rec) : Prop :=
  (completeish cm r = true ∧ hasEnd cm r = false)
  ∨ (completeish cm r = true ∧ veryShort cm r = true ∧ highAmt ds cfg r = true)
  ∨ (hasStart cm r = true ∧ hasEnd cm r = false ∧ longOpen cm now r = true)
  ∨ (hasStart cm r = false ∧ hasEnd cm r = false ∧ highAmt ds cfg r = true)
  ∨ (cfg.useTargetOverrun = true ∧ pastTarget cm cfg now r = true ∧ completeish cm r = false)

theorem longOpen_hasStart {cm : ColMap} {now : ℤ} {r : Rec}
    (h : longOpen cm now r = true) : hasStart cm r = true := by
  unfold longOpen at h
  unfold hasStart
  cases hsc : cm.startCol
  · rw [hsc] at h; simp at h
  · rw [hsc] at h
    simp only [Bool.true_and] at h ⊢
    cases hsd : r.startDate
    · rw [hsd] at h; simp at h
    · simp [Option.isSome]

/-- The default configuration of `compute_project_flags_fast`. -/
def cfg0 : Config := {}

/-- C2: a record of a preprocessed dataset receives FLAG_PotentialGhost if and
only if one of the five specified conditions (a)-(e) holds; condition (e) as
specified requires the record to be not complete, which the code weakens to
"not complete or no end date", but the extra disjunct is absorbed by
condition (a). -/
theorem C2_potential_ghost_conditions (ds : List Rec) (cm : ColMap) (cfg : Config)
    (now : ℤ) (r : Rec) (_hr : r ∈ ds) :
    ghostFlag ds cm cfg now r = true ↔ specGhostProp ds cm cfg now r := by
  have rel1 := @longOpen_hasStart cm now r
  revert rel1
  simp only [ghostFlag, specGhostProp, noDates, overrun]
  generalize completeish cm r = bc
  generalize hasEnd cm r = bhe
  generalize veryShort cm r = bvs
  generalize highAmt ds cfg r = bha
  generalize hasStart cm r = bhs
  generalize longOpen cm now r = blo
  generalize pastTarget cm cfg now r = bpt
  generalize cfg.useTargetOverrun = ben
  intro h
  revert h
  cases bc <;> cases bhe <;> cases bvs <;> cases bha <;> cases bhs <;> cases blo <;>
    cases bpt <;> cases ben <;> decide

def ghostWitRec : Rec := { statusStr := "100% Complete", accompPct := some 100 }

def ghostWitDs : List Rec := [ghostWitRec]

def ghostWitCm : ColMap := { statusCol := true, endCol := true }

theorem C2_potential_ghost_conditions_witness :
    ghostWitRec ∈ ghostWitDs ∧
      (ghostFlag ghostWitDs ghostWitCm cfg0 0 ghostWitRec = true ↔
        specGhostProp ghostWitDs ghostWitCm cfg0 0 ghostWitRec) :=
  ⟨by decide, C2_potential_ghost_conditions ghostWitDs ghostWitCm cfg0 0 ghostWitRec (by decide)⟩

/-! ## Costly stage: `iqr_bounds` (flags.py 317-344)

The code computes `[q1 - k*iqr, q3 + k*iqr]` where `iqr = q3 - q1`, replaced by
the sample standard deviation when `iqr <= 0` (by `1.0` when that is not
positive or is `NaN`).  The standard deviation is an irrational square root,
so the executable embedding `costlyFlag` compares squares in that branch;
`C3` proves it equivalent to the real-number bounds of the specification. -/

/-- The non-missing finite metric values (`astype(float).replace(inf,\x20nan).dropna()`;
`ℚ` has no infinities, so missing covers both). -/
def finiteVals (col : List (Option ℚ)) : List ℚ := col.filterMap id

def q1Of (s2 : List ℚ) : ℚ := quantileQ s2 (1 / 4)

def q3Of (s2 : List ℚ) : ℚ := quantileQ s2 (3 / 4)

/-- Decides `k * sqrt var < t` by comparing squares (valid for `0 ≤ k`,
`0 ≤ var`). -/
def gtSqrt (t k var : ℚ) : Bool := decide (0 < t) && decide (k ^ 2 * var < t ^ 2)

/-- `FLAG_Costly` for one record value `v` against the dataset metric column
`col`: `iqr_bounds` followed by the outside-the-bounds test (false for a
missing metric value, and for every record when the column has no usable
values, matching the `np.isfinite` guard). -/
def costlyFlag (col : List (Option ℚ)) (k : ℚ) (v : Option ℚ) : Bool :=
  match v with
  | none => false
  | some x =>
    let s2 := finiteVals col
    if s2.isEmpty then false
    else
      let q1 := q1Of s2
      let q3 := q3Of s2
      let iqr := q3 - q1
      if 0 < iqr then decide (x < q1 - k * iqr) || decide (q3 + k * iqr < x)
      else
        match varQ s2 with
        | some var =>
          if 0 < var then gtSqrt (q1 - x) k var || gtSqrt (x - q3) k var
          else decide (x < q1 - k * 1) || decide (q3 + k * 1 < x)
        | none => decide (x < q1 - k * 1) || decide (q3 + k * 1 < x)

/-- The effective band width of the specification: the IQR, with the standard
deviation substituted when the IQR is zero, and 1.0 when that is also zero or
undefined. -/
noncomputable def specEffIQR (col : List (Option ℚ)) : ℝ :=
  if q3Of (finiteVals col) - q1Of (finiteVals col) ≠ 0 then
    ((q3Of (finiteVals col) - q1Of (finiteVals col) : ℚ) : ℝ)
  else
    match varQ (finiteVals col) with
    | some var => if 0 < var then Real.sqrt ((var : ℚ) : ℝ) else 1
    | none => 1

noncomputable def specCostlyLow (col : List (Option ℚ)) (k : ℚ) : ℝ :=
  ((q1Of (finiteVals col) : ℚ) : ℝ) - (k : ℝ) * specEffIQR col

noncomputable def specCostlyHigh (col : List (Option ℚ)) (k : ℚ) : ℝ :=
  ((q3Of (finiteVals col) : ℚ) : ℝ) + (k : ℝ) * specEffIQR col

/-- The Costly criterion exactly as the specification words it. -/
def specCostlyProp (col : List (Option ℚ)) (k : ℚ) (v : Option ℚ) : Prop :=
  finiteVals col ≠ [] ∧
    ∃ x : ℚ, v = some x ∧
      ((x : ℝ) < specCostlyLow col k ∨ specCostlyHigh col k < (x : ℝ))

theorem quantileQ_mono {l : List ℚ} (hne : l ≠ []) {p p' : ℚ}
    (hp0 : 0 ≤ p) (hpp : p ≤ p') (hp1 : p' ≤ 1) : quantileQ l p ≤ quantileQ l p' := by
  have hsne : sortQ l ≠ [] := by
    intro hcon
    exact hne (List.eq_nil_of_length_eq_zero (by rw [← sortQ_length l, hcon]; rfl))
  exact quantileSorted_mono (sortQ_sorted l) hsne hp0 hpp hp1

theorem q1_le_q3 {l : List ℚ} (hne : l ≠ []) : q1Of l ≤ q3Of l :=
  quantileQ_mono hne (by norm_num) (by norm_num) (by norm_num)

theorem gtSqrt_iff {t k var : ℚ} (hk : 0 ≤ k) (hv : 0 ≤ var) :
    gtSqrt t k var = true ↔ (k : ℝ) * Real.sqrt ((var : ℚ) : ℝ) < (t : ℝ) := by
  unfold gtSqrt
  simp only [Bool.and_eq_true, decide_eq_true_eq]
  have hvr : (0 : ℝ) ≤ ((var : ℚ) : ℝ) := by exact_mod_cast hv
  have hks : 0 ≤ (k : ℝ) * Real.sqrt ((var : ℚ) : ℝ) :=
    mul_nonneg (by exact_mod_cast hk) (Real.sqrt_nonneg _)
  have hsq : (k : ℝ) * Real.sqrt ((var : ℚ) : ℝ) * ((k : ℝ) * Real.sqrt ((var : ℚ) : ℝ)) =
      ((k : ℚ) : ℝ) ^ 2 * ((var : ℚ) : ℝ) := by
    have hss := Real.mul_self_sqrt hvr
    calc (k : ℝ) * Real.sqrt ((var : ℚ) : ℝ) * ((k : ℝ) * Real.sqrt ((var : ℚ) : ℝ))
        = ((k : ℚ) : ℝ) ^ 2 * (Real.sqrt ((var : ℚ) : ℝ) * Real.sqrt ((var : ℚ) : ℝ)) := by ring
      _ = ((k : ℚ) : ℝ) ^ 2 * ((var : ℚ) : ℝ) := by rw [hss]
  constructor
  · rintro ⟨ht, hlt⟩
    have ht' : (0 : ℝ) < (t : ℝ) := by exact_mod_cast ht
    refine (mul_self_lt_mul_self_iff hks (le_of_lt ht')).mpr ?_
    rw [hsq]
    have hlt' : ((k : ℚ) : ℝ) ^ 2 * ((var : ℚ) : ℝ) < ((t : ℚ) : ℝ) ^ 2 := by
      exact_mod_cast hlt
    nlinarith
  · intro hlt
    have ht' : (0 : ℝ) < (t : ℝ) := lt_of_le_of_lt hks hlt
    have ht : (0 : ℚ) < t := by exact_mod_cast ht'
    refine ⟨ht, ?_⟩
    have hsqlt := (mul_self_lt_mul_self_iff hks (le_of_lt ht')).mp hlt
    rw [hsq] at hsqlt
    have : ((k ^ 2 * var : ℚ) : ℝ) < ((t ^ 2 : ℚ) : ℝ) := by push_cast; nlinarith
    exact_mod_cast this

/-- C3: the Costly flag is set iff the metric value is present and falls
outside the Tukey band `[Q1 - k*IQR, Q3 + k*IQR]` with the degenerate-IQR
substitutions of the specification, and no record is flagged when the metric
column has no usable values.  The code tests `iqr <= 0` where the
specification says "IQR is zero"; the two agree because `Q1 ≤ Q3`. -/
theorem C3_costly_iqr_bounds (col : List (Option ℚ)) (k : ℚ) (hk : 0 ≤ k)
    (v : Option ℚ) :
    costlyFlag col k v = true ↔ specCostlyProp col k v := by
  unfold costlyFlag specCostlyProp
  cases v with
  | none => simp
  | some x =>
    by_cases hemp : finiteVals col = []
    · simp [hemp]
    · have hne : (finiteVals col).isEmpty = false := by
        simpa [List.isEmpty_iff] using hemp
      dsimp only
      rw [hne]
      simp only [Bool.false_eq_true, if_false]
      have hq13 : q1Of (finiteVals col) ≤ q3Of (finiteVals col) := q1_le_q3 hemp
      by_cases hiqr : 0 < q3Of (finiteVals col) - q1Of (finiteVals col)
      · rw [if_pos hiqr]
        have heff : specEffIQR col =
            ((q3Of (finiteVals col) - q1Of (finiteVals col) : ℚ) : ℝ) := by
          unfold specEffIQR
          rw [if_pos (by exact ne_of_gt hiqr)]
        simp only [Bool.or_eq_true, decide_eq_true_eq]
        unfold specCostlyLow specCostlyHigh
        rw [heff]
        constructor
        · rintro (h | h)
          · exact ⟨hemp, x, rfl, Or.inl (by push_cast; exact_mod_cast h)⟩
          · exact ⟨hemp, x, rfl, Or.inr (by push_cast; exact_mod_cast h)⟩
        · rintro ⟨-, y, hy, h | h⟩
          · cases hy
            left
            have : ((x : ℚ) : ℝ) < ((q1Of (finiteVals col) - k * (q3Of (finiteVals col) - q1Of (finiteVals col)) : ℚ) : ℝ) := by
              push_cast
              push_cast at h
              linarith
            exact_mod_cast this
          · cases hy
            right
            have : ((q3Of (finiteVals col) + k * (q3Of (finiteVals col) - q1Of (finiteVals col)) : ℚ) : ℝ) < ((x : ℚ) : ℝ) := by
              push_cast
              push_cast at h
              linarith
            exact_mod_cast this
      · rw [if_neg hiqr]
        have hzero : q3Of (finiteVals col) - q1Of (finiteVals col) = 0 := by
          have : q3Of (finiteVals col) - q1Of (finiteVals col) ≤ 0 := le_of_not_lt hiqr
          linarith
        have heq : q3Of (finiteVals col) = q1Of (finiteVals col) := by linarith
        cases hvar : varQ (finiteVals col) with
        | none =>
          dsimp only
          have heff : specEffIQR col = 1 := by
            unfold specEffIQR
            rw [if_neg (by simp [hzero]), hvar]
          simp only [Bool.or_eq_true, decide_eq_true_eq]
          unfold specCostlyLow specCostlyHigh
          rw [heff]
          constructor
          · rintro (h | h)
            · exact ⟨hemp, x, rfl, Or.inl (by exact_mod_cast h)⟩
            · exact ⟨hemp, x, rfl, Or.inr (by exact_mod_cast h)⟩
          · rintro ⟨-, y, hy, h | h⟩
            · cases hy
              left
              have : ((x : ℚ) : ℝ) < ((q1Of (finiteVals col) - k * 1 : ℚ) : ℝ) := by
                push_cast
                linarith
              exact_mod_cast this
            · cases hy
              right
              have : ((q3Of (finiteVals col) + k * 1 : ℚ) : ℝ) < ((x : ℚ) : ℝ) := by
                push_cast
                linarith
              exact_mod_cast this
        | some var =>
          dsimp only
          have hv0 : 0 ≤ var := varQ_nonneg hvar
          by_cases hvpos : 0 < var
          · rw [if_pos hvpos]
            have heff : specEffIQR col = Real.sqrt ((var : ℚ) : ℝ) := by
              unfold specEffIQR
              rw [if_neg (by simp [hzero]), hvar]
              dsimp only
              rw [if_pos hvpos]
            simp only [Bool.or_eq_true]
            rw [gtSqrt_iff hk hv0, gtSqrt_iff hk hv0]
            unfold specCostlyLow specCostlyHigh
            rw [heff]
            constructor
            · rintro (h | h)
              · refine ⟨hemp, x, rfl, Or.inl ?_⟩
                push_cast at h ⊢
                linarith
              · refine ⟨hemp, x, rfl, Or.inr ?_⟩
                push_cast at h ⊢
                linarith
            · rintro ⟨-, y, hy, h | h⟩
              · cases hy
                left
                push_cast at h ⊢
                linarith
              · cases hy
                right
                push_cast at h ⊢
                linarith
          · rw [if_neg hvpos]
            have heff : specEffIQR col = 1 := by
              unfold specEffIQR
              rw [if_neg (by simp [hzero]), hvar]
              dsimp only
              rw [if_neg hvpos]
            simp only [Bool.or_eq_true, decide_eq_true_eq]
            unfold specCostlyLow specCostlyHigh
            rw [heff]
            constructor
            · rintro (h | h)
              · exact ⟨hemp, x, rfl, Or.inl (by exact_mod_cast h)⟩
              · exact ⟨hemp, x, rfl, Or.inr (by exact_mod_cast h)⟩
            · rintro ⟨-, y, hy, h | h⟩
              · cases hy
                left
                have : ((x : ℚ) : ℝ) < ((q1Of (finiteVals col) - k * 1 : ℚ) : ℝ) := by
                  push_cast
                  linarith
                exact_mod_cast this
              · cases hy
                right
                have : ((q3Of (finiteVals col) + k * 1 : ℚ) : ℝ) < ((x : ℚ) : ℝ) := by
                  push_cast
                  linarith
                exact_mod_cast this

theorem C3_costly_iqr_bounds_witness :
    (0 : ℚ) ≤ 3 / 2 ∧
      (costlyFlag [some 10, some 12, some 11, some 13, some 9, some 500] (3 / 2) (some 500) = true ↔
        specCostlyProp [some 10, some 12, some 11, some 13, some 9, some 500] (3 / 2) (some 500)) :=
  ⟨by norm_num, C3_costly_iqr_bounds [some 10, some 12, some 11, some 13, some 9, some 500] (3 / 2) (by norm_num) (some 500)⟩

/-! ## `textutils.seq_ratio` via `difflib.SequenceMatcher`

`SequenceMatcher.ratio` is `2*M/(len(a)+len(b))` (1.0 when both are empty),
where `M` totals the sizes of the matching blocks found by repeatedly taking,
in each remaining region, the longest matching block - by the documented
contract the one starting earliest in the first sequence and, among those,
earliest in the second (no junk: the autojunk heuristic needs 200+
characters).  `longestMatch` scans start positions in exactly that priority
order, keeping a strictly better block only, which realises the same
tie-break. -/

/-- Length of the common initial run of two character lists. -/
def runLen : List Char → List Char → Nat
  | a :: as, b :: bs => if a = b then runLen as bs + 1 else 0
  | _, _ => 0

theorem runLen_le_left : ∀ a b : List Char, runLen a b ≤ a.length
  | [], _ => by simp [runLen]
  | _ :: _, [] => by simp [runLen]
  | a :: as, b :: bs => by
    unfold runLen
    split
    · have := runLen_le_left as bs
      simpa using this
    · simp

theorem runLen_le_right : ∀ a b : List Char, runLen a b ≤ b.length
  | [], _ => by simp [runLen]
  | _ :: _, [] => by simp [runLen]
  | a :: as, b :: bs => by
    unfold runLen
    split
    · have := runLen_le_right as bs
      simpa using this
    · simp

/-- All candidate start pairs, scanned in the priority order of
`find_longest_match` (first string position major). -/
def pairList (a b : List Char) : List (Nat × Nat) :=
  (List.range a.length).flatMap (fun i => (List.range b.length).map (fun j => (i, j)))

/-- Fold keeping the first strictly-longest matching block. -/
def lmGo (a b : List Char) : List (Nat × Nat) → Nat × Nat × Nat → Nat × Nat × Nat
  | [], best => best
  | (i, j) :: rest, best =>
    lmGo a b rest
      (if best.2.2 < runLen (a.drop i) (b.drop j) then (i, j, runLen (a.drop i) (b.drop j))
       else best)

/-- `find_longest_match` over the whole of `a` and `b`. -/
def longestMatch (a b : List Char) : Nat × Nat × Nat := lmGo a b (pairList a b) (0, 0, 0)

theorem lmGo_spec (a b : List Char) (ps : List (Nat × Nat)) (best : Nat × Nat × Nat)
    (hps : ∀ p ∈ ps, p.1 < a.length ∧ p.2 < b.length)
    (hbest : best.2.2 = 0 ∨
      (best.1 < a.length ∧ best.2.1 < b.length ∧
        best.2.2 = runLen (a.drop best.1) (b.drop best.2.1))) :
    (lmGo a b ps best).2.2 = 0 ∨
      ((lmGo a b ps best).1 < a.length ∧ (lmGo a b ps best).2.1 < b.length ∧
        (lmGo a b ps best).2.2 =
          runLen (a.drop (lmGo a b ps best).1) (b.drop (lmGo a b ps best).2.1)) := by
  induction ps generalizing best with
  | nil => exact hbest
  | cons p rest ih =>
    obtain ⟨i, j⟩ := p
    have hp := hps (i, j) (by simp)
    refine ih _ (fun q hq => hps q (by simp [hq])) ?_
    by_cases hlt : best.2.2 < runLen (a.drop i) (b.drop j)
    · rw [if_pos hlt]
      exact Or.inr ⟨hp.1, hp.2, rfl⟩
    · rw [if_neg hlt]
      exact hbest

theorem pairList_bounds (a b : List Char) :
    ∀ p ∈ pairList a b, p.1 < a.length ∧ p.2 < b.length := by
  intro p hp
  unfold pairList at hp
  obtain ⟨i, hi, hmem⟩ := List.mem_flatMap.mp hp
  obtain ⟨j, hj, rfl⟩ := List.mem_map.mp hmem
  exact ⟨List.mem_range.mp hi, List.mem_range.mp hj⟩

theorem longestMatch_spec (a b : List Char) :
    (longestMatch a b).2.2 = 0 ∨
      ((longestMatch a b).1 < a.length ∧ (longestMatch a b).2.1 < b.length ∧
        (longestMatch a b).2.2 =
          runLen (a.drop (longestMatch a b).1) (b.drop (longestMatch a b).2.1)) :=
  lmGo_spec a b (pairList a b) (0, 0, 0) (pairList_bounds a b) (Or.inl rfl)

/-- Fuel-indexed total of matching-block sizes (`get_matching_blocks`
recursion); `a.length + b.length` fuel always suffices. -/
def totalMF : Nat → List Char → List Char → Nat
  | 0, _, _ => 0
  | fuel + 1, a, b =>
    if (longestMatch a b).2.2 = 0 then 0
    else
      (longestMatch a b).2.2 +
        totalMF fuel (a.take (longestMatch a b).1) (b.take (longestMatch a b).2.1) +
        totalMF fuel (a.drop ((longestMatch a b).1 + (longestMatch a b).2.2))
          (b.drop ((longestMatch a b).2.1 + (longestMatch a b).2.2))

/-- Total matched characters of `SequenceMatcher`. -/
def totalMatches (a b : List Char) : Nat := totalMF (a.length + b.length) a b

theorem totalMF_le_min : ∀ (fuel : Nat) (a b : List Char),
    totalMF fuel a b ≤ min a.length b.length := by
  intro fuel
  induction fuel with
  | zero => intro a b; simp [totalMF]
  | succ n ih =>
    intro a b
    unfold totalMF
    by_cases hz : (longestMatch a b).2.2 = 0
    · rw [if_pos hz]; simp
    · rw [if_neg hz]
      rcases longestMatch_spec a b with h0 | ⟨hia, hjb, hk⟩
      · exact absurd h0 hz
      · have hka : (longestMatch a b).2.2 ≤ a.length - (longestMatch a b).1 := by
          have := runLen_le_left (a.drop (longestMatch a b).1) (b.drop (longestMatch a b).2.1)
          rw [← hk] at this
          simpa using this
        have hkb : (longestMatch a b).2.2 ≤ b.length - (longestMatch a b).2.1 := by
          have := runLen_le_right (a.drop (longestMatch a b).1) (b.drop (longestMatch a b).2.1)
          rw [← hk] at this
          simpa using this
        have h1 := ih (a.take (longestMatch a b).1) (b.take (longestMatch a b).2.1)
        have h2 := ih (a.drop ((longestMatch a b).1 + (longestMatch a b).2.2))
          (b.drop ((longestMatch a b).2.1 + (longestMatch a b).2.2))
        simp only [List.length_take, List.length_drop] at h1 h2
        omega

/-- `textutils.seq_ratio`: ratio of the normalised strings. -/
def seqRatio (s1 s2 : String) : ℚ :=
  if (normText s1).data.length + (normText s2).data.length = 0 then 1
  else
    2 * (totalMatches (normText s1).data (normText s2).data : ℚ) /
      (((normText s1).data.length : ℚ) + ((normText s2).data.length : ℚ))

/-- C9 (amended): the sequence-ratio similarity always lies in `[0,1]`.
Symmetry, the dropped half of the claim, fails:
see `C9_seq_ratio_not_symmetric`. -/
theorem C9_seq_ratio_range (s1 s2 : String) : 0 ≤ seqRatio s1 s2 ∧ seqRatio s1 s2 ≤ 1 := by
  unfold seqRatio
  split
  · norm_num
  · rename_i hnz
    have hpos : (0 : ℚ) < ((normText s1).data.length : ℚ) + ((normText s2).data.length : ℚ) := by
      have : 0 < (normText s1).data.length + (normText s2).data.length := Nat.pos_of_ne_zero hnz
      exact_mod_cast this
    constructor
    · positivity
    · rw [div_le_one hpos]
      have hm := totalMF_le_min ((normText s1).data.length + (normText s2).data.length)
        (normText s1).data (normText s2).data
      have hm' : totalMatches (normText s1).data (normText s2).data ≤
          min (normText s1).data.length (normText s2).data.length := hm
      have h2 : 2 * totalMatches (normText s1).data (normText s2).data ≤
          (normText s1).data.length + (normText s2).data.length := by omega
      exact_mod_cast h2

set_option maxRecDepth 100000 in
/-- C9, counterexample to symmetry: swapping the arguments changes the greedy
matching total (3 matched characters one way, 2 the other), so the ratios are
6/13 and 4/13. -/
theorem C9_seq_ratio_not_symmetric :
    seqRatio "xyczab" "abdxyez" ≠ seqRatio "abdxyez" "xyczab" := by
  have h1 : totalMatches (normText "xyczab").data (normText "abdxyez").data = 3 := by decide
  have h2 : totalMatches (normText "abdxyez").data (normText "xyczab").data = 2 := by decide
  have hl1 : (normText "xyczab").data.length = 6 := by decide
  have hl2 : (normText "abdxyez").data.length = 7 := by decide
  unfold seqRatio
  rw [h1, h2, hl1, hl2]
  norm_num

/-! ## Redundancy stage: `_fast_redundant_flags_labeled` (flags.py 167-222)

Within each `(__AreaKey, __Year)` cluster the code builds the adjacency of the
gated-similarity graph over the cluster rows and collects its connected
components by traversal from each not-yet-seen, non-isolated row, flagging
every member of a component of size at least 2 and giving it the next group
id.  The embedding works with the row indices of the whole dataset: the edge
test `edgeB` includes the condition "same cluster key", which makes the
per-cluster adjacency matrices of the code one global relation.  The
traversal (which in the code pushes newly seen vertices on a stack) is
embedded as the standard iterated one-step expansion of the reachable set, a
fixpoint after at most `n` steps; the scorer `sim` stands for
`rapidfuzz.fuzz.token_set_ratio` and stays abstract. -/

/-- Python `set(_tokenize(t))`. -/
def tokSet (s : String) : Finset String := (tokenize s).toFinset

/-- Number of qualifying shared tokens (`common`, filtered to non-generic
tokens longer than 2 characters). -/
def sharedQual (t1 t2 : Finset String) : ℕ :=
  ((t1 ∩ t2).filter (fun t => t ∉ GENERIC_PHRASES ∧ 2 < t.length)).card

/-- Row lookup (total, out-of-range rows give the empty record). -/
def recAt (ds : List Rec) (i : ℕ) : Rec := ds.getD i {}

/-- The `(__AreaKey, __Year)` cluster key of row `i`. -/
def keyAt (ds : List Rec) (i : ℕ) : String × Option ℤ :=
  ((recAt ds i).areaKey, (recAt ds i).year)

/-- Generic-phrase-stripped title of row `i` (`titles_stripped`). -/
def strippedAt (po : List String) (ds : List Rec) (i : ℕ) : String :=
  stripGeneric po (recAt ds i).title

/-- Token set of the stripped title of row `i` (`toks`). -/
def toksAt (po : List String) (ds : List Rec) (i : ℕ) : Finset String :=
  tokSet (strippedAt po ds i)

/-- The gated similarity edge: same cluster, distinct rows, scorer at or above
the threshold, and at least 2 qualifying shared tokens. -/
def edgeB (sim : String → String → ℚ) (po : List String) (ds : List Rec) (thr : ℤ)
    (i j : ℕ) : Bool :=
  decide (i < ds.length) && decide (j < ds.length) && decide (i ≠ j) &&
    decide (keyAt ds i = keyAt ds j) &&
    decide ((thr : ℚ) ≤ sim (strippedAt po ds i) (strippedAt po ds j)) &&
    decide (2 ≤ sharedQual (toksAt po ds i) (toksAt po ds j))

theorem sharedQual_comm (t1 t2 : Finset String) : sharedQual t1 t2 = sharedQual t2 t1 := by
  unfold sharedQual
  rw [Finset.inter_comm]

theorem edgeB_symm {sim : String → String → ℚ} (hsym : ∀ a b, sim a b = sim b a)
    (po : List String) (ds : List Rec) (thr : ℤ) (i j : ℕ) :
    edgeB sim po ds thr i j = edgeB sim po ds thr j i := by
  unfold edgeB
  rw [hsym (strippedAt po ds i) (strippedAt po ds j), sharedQual_comm]
  by_cases h1 : i < ds.length <;> by_cases h2 : j < ds.length <;>
    by_cases h3 : i = j <;>
    by_cases h4 : keyAt ds i = keyAt ds j <;>
    simp [h1, h2, h3, h4, eq_comm, Ne]

theorem edgeB_irrefl (sim : String → String → ℚ) (po : List String) (ds : List Rec)
    (thr : ℤ) (i : ℕ) : edgeB sim po ds thr i i = false := by
  unfold edgeB
  simp

theorem edgeB_bound {sim : String → String → ℚ} {po : List String} {ds : List Rec}
    {thr : ℤ} {i j : ℕ} (h : edgeB sim po ds thr i j = true) :
    i < ds.length ∧ j < ds.length := by
  unfold edgeB at h
  simp only [Bool.and_eq_true, decide_eq_true_eq] at h
  exact ⟨h.1.1.1.1.1, h.1.1.1.1.2⟩

theorem edgeB_key {sim : String → String → ℚ} {po : List String} {ds : List Rec}
    {thr : ℤ} {i j : ℕ} (h : edgeB sim po ds thr i j = true) : keyAt ds i = keyAt ds j := by
  unfold edgeB at h
  simp only [Bool.and_eq_true, decide_eq_true_eq] at h
  exact h.1.1.2

theorem edgeB_ne {sim : String → String → ℚ} {po : List String} {ds : List Rec}
    {thr : ℤ} {i j : ℕ} (h : edgeB sim po ds thr i j = true) : i ≠ j := by
  unfold edgeB at h
  simp only [Bool.and_eq_true, decide_eq_true_eq] at h
  exact h.1.1.1.2

/-- A stricter threshold only removes edges. -/
theorem edgeB_mono {sim : String → String → ℚ} {po : List String} {ds : List Rec}
    {thr1 thr2 : ℤ} (hth : thr1 ≤ thr2) {i j : ℕ}
    (h : edgeB sim po ds thr2 i j = true) : edgeB sim po ds thr1 i j = true := by
  unfold edgeB at h ⊢
  simp only [Bool.and_eq_true, decide_eq_true_eq] at h ⊢
  refine ⟨⟨h.1.1, ?_⟩, h.2⟩
  have hc : ((thr1 : ℚ)) ≤ (thr2 : ℚ) := by exact_mod_cast hth
  exact le_trans hc h.1.2

/-! ### Generic component discovery over a boolean adjacency -/

/-- `not adj[i]` test of the traversal loop: is row `i` isolated. -/
def nonIso (E : ℕ → ℕ → Bool) (n i : ℕ) : Bool := (List.range n).any (fun j => E i j)

/-- One-step expansion of the set being traversed: add every unseen vertex
outside `avoid` adjacent to the set. -/
def expandF (E : ℕ → ℕ → Bool) (n : ℕ) (avoid s : Finset ℕ) : Finset ℕ :=
  s ∪ (Finset.range n).filter (fun v => v ∉ avoid ∧ v ∉ s ∧ ∃ u ∈ s, E u v = true)

/-- The traversal closure from `i`, avoiding the already-seen set: `n`
expansion steps always reach the fixpoint. -/
def closureF (E : ℕ → ℕ → Bool) (n : ℕ) (avoid : Finset ℕ) (i : ℕ) : Finset ℕ :=
  (expandF E n avoid)^[n] {i}

/-- One iteration of the component-discovery loop: a start already seen or
isolated is skipped, otherwise its closure joins the seen set and, when of
size at least 2, is appended as the next component. -/
def discStep (E : ℕ → ℕ → Bool) (n : ℕ) (st : Finset ℕ × List (Finset ℕ)) (i : ℕ) :
    Finset ℕ × List (Finset ℕ) :=
  if i ∈ st.1 ∨ nonIso E n i = false then st
  else
    (st.1 ∪ closureF E n st.1 i,
     if 2 ≤ (closureF E n st.1 i).card then st.2 ++ [closureF E n st.1 i] else st.2)

/-- The component-discovery loop over the list of starts. -/
def discover (E : ℕ → ℕ → Bool) (n : ℕ) (starts : List ℕ) :
    Finset ℕ × List (Finset ℕ) :=
  starts.foldl (discStep E n) (∅, [])

/-- A step of the traversal that may not enter `avoid`. -/
def AvoidStep (E : ℕ → ℕ → Bool) (avoid : Finset ℕ) (u v : ℕ) : Prop :=
  E u v = true ∧ v ∉ avoid

/-- Plain edge relation. -/
def EdgeP (E : ℕ → ℕ → Bool) (u v : ℕ) : Prop := E u v = true

theorem expandF_extensive (E : ℕ → ℕ → Bool) (n : ℕ) (avoid s : Finset ℕ) :
    s ⊆ expandF E n avoid s := Finset.subset_union_left

theorem iterate_extensive (E : ℕ → ℕ → Bool) (n : ℕ) (avoid s : Finset ℕ) :
    ∀ k, s ⊆ (expandF E n avoid)^[k] s := by
  intro k
  induction k with
  | zero => simp
  | succ m ih =>
    rw [Function.iterate_succ_apply']
    exact subset_trans ih (expandF_extensive E n avoid _)

theorem iterate_subset_range {E : ℕ → ℕ → Bool} {n : ℕ} {avoid : Finset ℕ} {i : ℕ}
    (hi : i < n) : ∀ k, (expandF E n avoid)^[k] {i} ⊆ Finset.range n := by
  intro k
  induction k with
  | zero =>
    simp only [Function.iterate_zero, id]
    intro v hv
    simp only [Finset.mem_singleton] at hv
    subst hv
    exact Finset.mem_range.mpr hi
  | succ m ih =>
    rw [Function.iterate_succ_apply']
    intro v hv
    rcases Finset.mem_union.mp hv with h | h
    · exact ih h
    · exact Finset.mem_range.mpr (Finset.mem_range.mp (Finset.mem_filter.mp h).1)

theorem closureF_isFixed {E : ℕ → ℕ → Bool} {n : ℕ} {avoid : Finset ℕ} {i : ℕ}
    (hi : i < n) : expandF E n avoid (closureF E n avoid i) = closureF E n avoid i := by
  by_contra hne
  have grow : ∀ k, k ≤ n → k + 1 ≤ ((expandF E n avoid)^[k] {i}).card := by
    intro k
    induction k with
    | zero => intro _; simp
    | succ m ih =>
      intro hm
      have hcard := ih (by omega)
      have hneq : (expandF E n avoid)^[m + 1] {i} ≠ (expandF E n avoid)^[m] {i} := by
        intro heq
        apply hne
        have hfix : expandF E n avoid ((expandF E n avoid)^[m] {i}) =
            (expandF E n avoid)^[m] {i} := by
          calc expandF E n avoid ((expandF E n avoid)^[m] {i})
              = (expandF E n avoid)^[m + 1] {i} := (Function.iterate_succ_apply' _ _ _).symm
            _ = (expandF E n avoid)^[m] {i} := heq
        have hstab : (expandF E n avoid)^[n] {i} = (expandF E n avoid)^[m] {i} := by
          have hdecomp : (expandF E n avoid)^[n] {i} =
              (expandF E n avoid)^[n - m] ((expandF E n avoid)^[m] {i}) := by
            rw [← Function.iterate_add_apply]
            congr 1
            omega
          rw [hdecomp, Function.iterate_fixed hfix]
        unfold closureF
        rw [hstab]
        exact hfix
      have hsub : (expandF E n avoid)^[m] {i} ⊆ (expandF E n avoid)^[m + 1] {i} := by
        rw [Function.iterate_succ_apply']
        exact expandF_extensive E n avoid _
      have hss : (expandF E n avoid)^[m] {i} ⊂ (expandF E n avoid)^[m + 1] {i} :=
        HasSubset.Subset.ssubset_of_ne hsub (Ne.symm hneq)
      have := Finset.card_lt_card hss
      omega
  have h1 := grow n le_rfl
  have h2 : ((expandF E n avoid)^[n] {i}).card ≤ n := by
    calc ((expandF E n avoid)^[n] {i}).card ≤ (Finset.range n).card :=
          Finset.card_le_card (iterate_subset_range hi n)
      _ = n := Finset.card_range n
  omega

theorem mem_iterate_reachA {E : ℕ → ℕ → Bool} {n : ℕ} {avoid : Finset ℕ} {i : ℕ} :
    ∀ k v, v ∈ (expandF E n avoid)^[k] {i} →
      Relation.ReflTransGen (AvoidStep E avoid) i v := by
  intro k
  induction k with
  | zero =>
    intro v hv
    simp only [Function.iterate_zero, id, Finset.mem_singleton] at hv
    subst hv
    exact Relation.ReflTransGen.refl
  | succ m ih =>
    intro v hv
    rw [Function.iterate_succ_apply'] at hv
    rcases Finset.mem_union.mp hv with h | h
    · exact ih v h
    · obtain ⟨hva, hvs, u, hu, hE⟩ := (Finset.mem_filter.mp h).2
      exact Relation.ReflTransGen.tail (ih u hu) ⟨hE, hva⟩

theorem reachA_mem_closure {E : ℕ → ℕ → Bool} {n : ℕ} {avoid : Finset ℕ} {i : ℕ}
    (hi : i < n) (hbound : ∀ u v, E u v = true → u < n ∧ v < n) :
    ∀ v, Relation.ReflTransGen (AvoidStep E avoid) i v → v ∈ closureF E n avoid i := by
  intro v hv
  induction hv with
  | refl =>
    exact iterate_extensive E n avoid {i} n (Finset.mem_singleton_self i)
  | tail hp hstep ih =>
    rename_i u w
    by_cases hw : w ∈ closureF E n avoid i
    · exact hw
    · have hwn : w < n := (hbound u w hstep.1).2
      have : w ∈ expandF E n avoid (closureF E n avoid i) := by
        apply Finset.mem_union_right
        apply Finset.mem_filter.mpr
        exact ⟨Finset.mem_range.mpr hwn, hstep.2, hw, u, ih, hstep.1⟩
      rw [closureF_isFixed hi] at this
      exact this

/-- The closure is exactly the avoid-respecting reachable set. -/
theorem mem_closureF_iff {E : ℕ → ℕ → Bool} {n : ℕ} {avoid : Finset ℕ} {i : ℕ}
    (hi : i < n) (hbound : ∀ u v, E u v = true → u < n ∧ v < n) (v : ℕ) :
    v ∈ closureF E n avoid i ↔ Relation.ReflTransGen (AvoidStep E avoid) i v :=
  ⟨mem_iterate_reachA n v, reachA_mem_closure hi hbound v⟩

theorem reachA_not_in_avoid {E : ℕ → ℕ → Bool} {avoid : Finset ℕ} {i v : ℕ}
    (hi : i ∉ avoid) (h : Relation.ReflTransGen (AvoidStep E avoid) i v) : v ∉ avoid := by
  induction h with
  | refl => exact hi
  | tail _ hstep _ => exact hstep.2

theorem reachA_iff_reach {E : ℕ → ℕ → Bool} {avoid : Finset ℕ} {i : ℕ}
    (hsym : ∀ u v, E u v = E v u)
    (hclosed : ∀ u ∈ avoid, ∀ v, E u v = true → v ∈ avoid)
    (hi : i ∉ avoid) (v : ℕ) :
    Relation.ReflTransGen (AvoidStep E avoid) i v ↔ Relation.ReflTransGen (EdgeP E) i v := by
  constructor
  · exact Relation.ReflTransGen.mono (fun u w hw => hw.1)
  · intro h
    induction h with
    | refl => exact Relation.ReflTransGen.refl
    | tail hp hstep ih =>
      rename_i u w
      have hu : u ∉ avoid := reachA_not_in_avoid hi ih
      have hw : w ∉ avoid := by
        intro hin
        have hwu : E w u = true := by rw [← hsym u w]; exact hstep
        exact hu (hclosed w hin u hwu)
      exact Relation.ReflTransGen.tail ih ⟨hstep, hw⟩

theorem reachE_symm {E : ℕ → ℕ → Bool} (hsym : ∀ u v, E u v = E v u) {i j : ℕ}
    (h : Relation.ReflTransGen (EdgeP E) i j) : Relation.ReflTransGen (EdgeP E) j i := by
  have hs : Symmetric (EdgeP E) := by
    intro u v huv
    unfold EdgeP at huv ⊢
    rw [hsym v u]
    exact huv
  exact Relation.ReflTransGen.symmetric hs h

/-- Invariant of the discovery loop: the seen set is adjacency-closed and is
exactly the union of the discovered components, which are disjoint connected
components of size at least 2. -/
structure DiscInv (E : ℕ → ℕ → Bool) (n : ℕ) (st : Finset ℕ × List (Finset ℕ)) : Prop where
  range_sub : st.1 ⊆ Finset.range n
  closed : ∀ u ∈ st.1, ∀ v, E u v = true → v ∈ st.1
  comps_sub : ∀ c ∈ st.2, c ⊆ st.1
  comps_card : ∀ c ∈ st.2, 2 ≤ c.card
  comps_disj : st.2.Pairwise (fun c d => Disjoint c d)
  comps_conn : ∀ c ∈ st.2, ∀ x ∈ c, ∀ y, (y ∈ c ↔ Relation.ReflTransGen (EdgeP E) x y)
  seen_covered : ∀ v ∈ st.1, ∃ c ∈ st.2, v ∈ c

theorem discStep_inv {E : ℕ → ℕ → Bool} {n : ℕ}
    (hsym : ∀ u v, E u v = E v u)
    (hirr : ∀ u, E u u = false)
    (hbound : ∀ u v, E u v = true → u < n ∧ v < n)
    (st : Finset ℕ × List (Finset ℕ)) (hinv : DiscInv E n st) (i : ℕ) :
    DiscInv E n (discStep E n st i) ∧ st.1 ⊆ (discStep E n st i).1 ∧
      (∀ c ∈ st.2, c ∈ (discStep E n st i).2) ∧
      (nonIso E n i = true → i ∈ (discStep E n st i).1) := by
  unfold discStep
  by_cases hskip : i ∈ st.1 ∨ nonIso E n i = false
  · rw [if_pos hskip]
    refine ⟨hinv, subset_rfl, fun c hc => hc, fun hni => ?_⟩
    rcases hskip with h | h
    · exact h
    · rw [hni] at h
      exact absurd h (by simp)
  · rw [if_neg hskip]
    push_neg at hskip
    obtain ⟨hiseen, hni⟩ := hskip
    have hnit : nonIso E n i = true := by
      cases h : nonIso E n i
      · exact absurd h hni
      · rfl
    obtain ⟨j, hjr, hEij⟩ := List.any_eq_true.mp hnit
    have hin : i < n := (hbound i j hEij).1
    have hmemA : ∀ v, v ∈ closureF E n st.1 i ↔
        Relation.ReflTransGen (AvoidStep E st.1) i v := fun v =>
      mem_closureF_iff hin hbound v
    have hmem : ∀ v, v ∈ closureF E n st.1 i ↔
        Relation.ReflTransGen (EdgeP E) i v := by
      intro v
      rw [hmemA v]
      exact reachA_iff_reach hsym hinv.closed hiseen v
    have hic : i ∈ closureF E n st.1 i := (hmem i).mpr Relation.ReflTransGen.refl
    have hjc : j ∈ closureF E n st.1 i := (hmem j).mpr (Relation.ReflTransGen.single hEij)
    have hij : i ≠ j := by
      intro he
      subst he
      rw [hirr i] at hEij
      exact absurd hEij (by simp)
    have hcard : 2 ≤ (closureF E n st.1 i).card := by
      have hsub : ({i, j} : Finset ℕ) ⊆ closureF E n st.1 i := by
        rw [Finset.insert_subset_iff]
        exact ⟨hic, by simpa using hjc⟩
      calc 2 = ({i, j} : Finset ℕ).card := (Finset.card_pair hij).symm
        _ ≤ (closureF E n st.1 i).card := Finset.card_le_card hsub
    have hdisj : Disjoint st.1 (closureF E n st.1 i) :=
      Finset.disjoint_right.mpr (fun v hv => reachA_not_in_avoid hiseen ((hmemA v).mp hv))
    rw [if_pos hcard]
    refine ⟨⟨?_, ?_, ?_, ?_, ?_, ?_, ?_⟩, Finset.subset_union_left,
      fun c hc => List.mem_append.mpr (Or.inl hc),
      fun _ => Finset.mem_union_right _ hic⟩
    · exact Finset.union_subset hinv.range_sub (iterate_subset_range hin n)
    · intro u hu v hE
      rcases Finset.mem_union.mp hu with h | h
      · exact Finset.mem_union_left _ (hinv.closed u h v hE)
      · apply Finset.mem_union_right
        exact (hmem v).mpr (Relation.ReflTransGen.tail ((hmem u).mp h) hE)
    · intro c hc
      rcases List.mem_append.mp hc with h | h
      · exact subset_trans (hinv.comps_sub c h) Finset.subset_union_left
      · simp only [List.mem_singleton] at h
        subst h
        exact Finset.subset_union_right
    · intro c hc
      rcases List.mem_append.mp hc with h | h
      · exact hinv.comps_card c h
      · simp only [List.mem_singleton] at h
        subst h
        exact hcard
    · rw [List.pairwise_append]
      refine ⟨hinv.comps_disj, List.pairwise_singleton _ _, ?_⟩
      intro a ha b hb
      simp only [List.mem_singleton] at hb
      subst hb
      exact Finset.disjoint_of_subset_left (hinv.comps_sub a ha) hdisj
    · intro c hc x hx y
      rcases List.mem_append.mp hc with h | h
      · exact hinv.comps_conn c h x hx y
      · simp only [List.mem_singleton] at h
        subst h
        have hxe : Relation.ReflTransGen (EdgeP E) i x := (hmem x).mp hx
        rw [hmem y]
        constructor
        · intro hiy
          exact Relation.ReflTransGen.trans (reachE_symm hsym hxe) hiy
        · intro hxy
          exact Relation.ReflTransGen.trans hxe hxy
    · intro v hv
      rcases Finset.mem_union.mp hv with h | h
      · obtain ⟨c, hc, hvc⟩ := hinv.seen_covered v h
        exact ⟨c, List.mem_append.mpr (Or.inl hc), hvc⟩
      · exact ⟨closureF E n st.1 i, List.mem_append.mpr (Or.inr (by simp)), h⟩

theorem discover_fold_inv {E : ℕ → ℕ → Bool} {n : ℕ}
    (hsym : ∀ u v, E u v = E v u)
    (hirr : ∀ u, E u u = false)
    (hbound : ∀ u v, E u v = true → u < n ∧ v < n) :
    ∀ (starts : List ℕ) (st : Finset ℕ × List (Finset ℕ)), DiscInv E n st →
      DiscInv E n (starts.foldl (discStep E n) st) ∧
        st.1 ⊆ (starts.foldl (discStep E n) st).1 ∧
        (∀ i ∈ starts, nonIso E n i = true → i ∈ (starts.foldl (discStep E n) st).1) := by
  intro starts
  induction starts with
  | nil =>
    intro st hinv
    exact ⟨hinv, subset_rfl, by simp⟩
  | cons a rest ih =>
    intro st hinv
    obtain ⟨hinv', hsub', _, hcov'⟩ := discStep_inv hsym hirr hbound st hinv a
    obtain ⟨hinvr, hsubr, hcovr⟩ := ih (discStep E n st a) hinv'
    refine ⟨hinvr, subset_trans hsub' hsubr, ?_⟩
    intro i hi hni
    rcases List.mem_cons.mp hi with rfl | hi'
    · exact hsubr (hcov' hni)
    · exact hcovr i hi' hni

theorem discInv_empty (E : ℕ → ℕ → Bool) (n : ℕ) : DiscInv E n (∅, []) := by
  constructor <;> simp

/-- Master characterisation: with symmetric, irreflexive, bounded adjacency
and a start list containing every edge endpoint, a row lies in some
discovered component exactly when it has a neighbour. -/
theorem discover_mem_iff {E : ℕ → ℕ → Bool} {n : ℕ} {starts : List ℕ}
    (hsym : ∀ u v, E u v = E v u)
    (hirr : ∀ u, E u u = false)
    (hbound : ∀ u v, E u v = true → u < n ∧ v < n)
    (hstarts : ∀ i j, E i j = true → i ∈ starts) (i : ℕ) :
    (∃ c ∈ (discover E n starts).2, i ∈ c) ↔ (∃ j, E i j = true) := by
  obtain ⟨hinv, -, hcov⟩ :=
    discover_fold_inv hsym hirr hbound starts (∅, []) (discInv_empty E n)
  constructor
  · rintro ⟨c, hc, hic⟩
    have hcard := hinv.comps_card c hc
    obtain ⟨y, hy, hyne⟩ :=
      Finset.exists_ne_of_one_lt_card (lt_of_lt_of_le one_lt_two hcard) i
    have hreach : Relation.ReflTransGen (EdgeP E) i y :=
      (hinv.comps_conn c hc i hic y).mp hy
    rcases Relation.ReflTransGen.cases_head hreach with heq | ⟨z, hz, -⟩
    · exact absurd heq.symm hyne
    · exact ⟨z, hz⟩
  · rintro ⟨j, hE⟩
    have hni : nonIso E n i = true := by
      apply List.any_eq_true.mpr
      exact ⟨j, List.mem_range.mpr (hbound i j hE).2, hE⟩
    have hiseen : i ∈ (discover E n starts).1 := hcov i (hstarts i j hE) hni
    exact hinv.seen_covered i hiseen

/-! ### Cluster iteration and the dataset-level redundancy outputs -/

/-- Ordering of nullable years: missing sorts last (as pandas sorts `NaN`). -/
def yearLe : Option ℤ → Option ℤ → Bool
  | none, none => true
  | none, some _ => false
  | some _, none => true
  | some a, some b => a ≤ b

/-- Code-point lexicographic string order (Python string comparison). -/
def strLeL : List Char → List Char → Bool
  | [], _ => true
  | _ :: _, [] => false
  | a :: as, b :: bs => if a < b then true else if b < a then false else strLeL as bs

/-- Python string less-or-equal. -/
def strLe (s1 s2 : String) : Bool := strLeL s1.data s2.data

/-- Ordering of `(__AreaKey, __Year)` group keys (pandas iterates groups in
sorted key order; no proved property depends on the exact order). -/
def keyLe (k1 k2 : String × Option ℤ) : Bool :=
  if k1.1 = k2.1 then yearLe k1.2 k2.2 else strLe k1.1 k2.1

/-- The distinct cluster keys, in iteration order. -/
def clusterKeys (ds : List Rec) : List (String × Option ℤ) :=
  List.insertionSort (fun k1 k2 => keyLe k1 k2 = true)
    ((ds.map (fun r => (r.areaKey, r.year))).dedup)

/-- The row indices of one cluster, in original row order (`sub.index`). -/
def clusterOf (ds : List Rec) (k : String × Option ℤ) : List ℕ :=
  (List.range ds.length).filter (fun i => decide (keyAt ds i = k))

/-- The traversal starts: every row of every cluster with at least two rows,
cluster by cluster (`if len(sub) < 2: continue` drops singleton clusters). -/
def startsList (ds : List Rec) : List ℕ :=
  (clusterKeys ds).flatMap (fun k =>
    if (clusterOf ds k).length < 2 then [] else clusterOf ds k)

/-- The components discovered by `_fast_redundant_flags_labeled`; empty when no
title column resolved. -/
def redundantComps (sim : String → String → ℚ) (po : List String) (titleCol : Bool)
    (ds : List Rec) (thr : ℤ) : List (Finset ℕ) :=
  if titleCol then (discover (edgeB sim po ds thr) ds.length (startsList ds)).2 else []

/-- `FLAG_RedundantSameAreaYear` for row `i`. -/
def redFlag (comps : List (Finset ℕ)) (i : ℕ) : Bool := comps.any (fun c => decide (i ∈ c))

/-- Zero-based index of the first component containing `i`. -/
def gidIdx (i : ℕ) : List (Finset ℕ) → Option ℕ
  | [] => none
  | c :: rest => if i ∈ c then some 0 else (gidIdx i rest).map (· + 1)

/-- `RedundantGroupID` of row `i`: components are numbered 1, 2, ... in
discovery order. -/
def redGid (comps : List (Finset ℕ)) (i : ℕ) : Option ℕ := (gidIdx i comps).map (· + 1)

/-- `RedundantPeers` of row `i`: the titles of the other members of its
component. -/
def redPeers (ds : List Rec) (comps : List (Finset ℕ)) (i : ℕ) : List String :=
  match comps.find? (fun c => decide (i ∈ c)) with
  | some c => ((c.erase i).sort (· ≤ ·)).map (fun j => (recAt ds j).title)
  | none => []

theorem mem_clusterKeys {ds : List Rec} {i : ℕ} (hi : i < ds.length) :
    keyAt ds i ∈ clusterKeys ds := by
  unfold clusterKeys
  rw [(List.perm_insertionSort _ _).mem_iff, List.mem_dedup]
  apply List.mem_map.mpr
  refine ⟨ds.get ⟨i, hi⟩, List.get_mem ds i hi, ?_⟩
  unfold keyAt recAt
  rw [List.getD_eq_getElem ds {} hi, List.get_eq_getElem]

theorem mem_clusterOf {ds : List Rec} {i : ℕ} (hi : i < ds.length)
    {k : String × Option ℤ} (hk : keyAt ds i = k) : i ∈ clusterOf ds k := by
  unfold clusterOf
  rw [List.mem_filter]
  exact ⟨List.mem_range.mpr hi, by simpa using hk⟩

theorem mem_startsList {sim : String → String → ℚ} {po : List String} {ds : List Rec}
    {thr : ℤ} {i j : ℕ} (hE : edgeB sim po ds thr i j = true) : i ∈ startsList ds := by
  have hb := edgeB_bound hE
  have hk := edgeB_key hE
  have hne := edgeB_ne hE
  have hic : i ∈ clusterOf ds (keyAt ds i) := mem_clusterOf hb.1 rfl
  have hjc : j ∈ clusterOf ds (keyAt ds i) := mem_clusterOf hb.2 hk.symm
  have hnodup : (clusterOf ds (keyAt ds i)).Nodup :=
    List.Nodup.filter _ (List.nodup_range ds.length)
  have hlen : 2 ≤ (clusterOf ds (keyAt ds i)).length := by
    have hsub : ({i, j} : Finset ℕ) ⊆ (clusterOf ds (keyAt ds i)).toFinset := by
      rw [Finset.insert_subset_iff]
      constructor
      · exact List.mem_toFinset.mpr hic
      · simpa using List.mem_toFinset.mpr hjc
    have h2 : ({i, j} : Finset ℕ).card = 2 := Finset.card_pair hne
    calc 2 = ({i, j} : Finset ℕ).card := h2.symm
      _ ≤ (clusterOf ds (keyAt ds i)).toFinset.card := Finset.card_le_card hsub
      _ = (clusterOf ds (keyAt ds i)).length := List.toFinset_card_of_nodup hnodup
  apply List.mem_flatMap.mpr
  refine ⟨keyAt ds i, mem_clusterKeys hb.1, ?_⟩
  rw [if_neg (by omega)]
  exact hic

theorem gidIdx_isSome_iff (i : ℕ) :
    ∀ comps : List (Finset ℕ), (gidIdx i comps).isSome = true ↔ ∃ c ∈ comps, i ∈ c := by
  intro comps
  induction comps with
  | nil => simp [gidIdx]
  | cons c rest ih =>
    unfold gidIdx
    by_cases hc : i ∈ c
    · simp [hc]
    · rw [if_neg hc]
      have hmap : ((gidIdx i rest).map (· + 1)).isSome = (gidIdx i rest).isSome := by
        cases gidIdx i rest <;> rfl
      rw [hmap, ih]
      constructor
      · rintro ⟨d, hd, hid⟩
        exact ⟨d, List.mem_cons_of_mem c hd, hid⟩
      · rintro ⟨d, hd, hid⟩
        rcases List.mem_cons.mp hd with rfl | hd'
        · exact absurd hid hc
        · exact ⟨d, hd', hid⟩

theorem gidIdx_of_mem {i : ℕ} :
    ∀ {comps : List (Finset ℕ)}, comps.Pairwise (fun c d => Disjoint c d) →
      ∀ {k : ℕ} {c : Finset ℕ}, comps.get? k = some c → i ∈ c →
        gidIdx i comps = some k := by
  intro comps
  induction comps with
  | nil => intro _ k c hk; simp [List.get?] at hk
  | cons c0 rest ih =>
    intro hpw k c hk hic
    obtain ⟨hd, hrest⟩ := List.pairwise_cons.mp hpw
    cases k with
    | zero =>
      simp only [List.get?] at hk
      injection hk with hk
      subst hk
      unfold gidIdx
      rw [if_pos hic]
    | succ m =>
      simp only [List.get?] at hk
      have hcrest : c ∈ rest := List.get?_mem hk
      have hnot : i ∉ c0 := by
        intro hin
        exact Finset.disjoint_left.mp (hd c hcrest) hin hic
      unfold gidIdx
      rw [if_neg hnot, ih hrest hk hic]
      rfl

theorem gidIdx_some {i : ℕ} :
    ∀ {comps : List (Finset ℕ)} {k : ℕ}, gidIdx i comps = some k →
      ∃ c, comps.get? k = some c ∧ i ∈ c := by
  intro comps
  induction comps with
  | nil => intro k h; simp [gidIdx] at h
  | cons c0 rest ih =>
    intro k h
    unfold gidIdx at h
    by_cases hc : i ∈ c0
    · rw [if_pos hc] at h
      injection h with h
      subst h
      exact ⟨c0, rfl, hc⟩
    · rw [if_neg hc] at h
      rcases hm : gidIdx i rest with _ | m
      · rw [hm] at h; simp at h
      · rw [hm] at h
        simp only [Option.map_some'] at h
        injection h with h
        obtain ⟨c, hcg, hci⟩ := ih hm
        refine ⟨c, ?_, hci⟩
        rw [← h]
        simpa using hcg

theorem mem_unique_of_pairwise_disjoint :
    ∀ {comps : List (Finset ℕ)}, comps.Pairwise (fun c d => Disjoint c d) →
      ∀ {c c' : Finset ℕ}, c ∈ comps → c' ∈ comps → ∀ {i : ℕ}, i ∈ c → i ∈ c' → c = c' := by
  intro comps
  induction comps with
  | nil => intro _ c c' hc; simp at hc
  | cons c0 rest ih =>
    intro hpw c c' hc hc' i hic hic'
    obtain ⟨hd, hrest⟩ := List.pairwise_cons.mp hpw
    rcases List.mem_cons.mp hc with rfl | hcr
    · rcases List.mem_cons.mp hc' with rfl | hcr'
      · rfl
      · exact absurd hic' (Finset.disjoint_left.mp (hd c' hcr') hic)
    · rcases List.mem_cons.mp hc' with rfl | hcr'
      · exact absurd hic (Finset.disjoint_left.mp (hd c hcr) hic')
      · exact ih hrest hcr hcr' hic hic'

/-- Connectivity in the gated-similarity graph. -/
def redConn (sim : String → String → ℚ) (po : List String) (ds : List Rec) (thr : ℤ)
    (i j : ℕ) : Prop :=
  Relation.ReflTransGen (EdgeP (edgeB sim po ds thr)) i j

theorem redFlag_iff_exists (comps : List (Finset ℕ)) (i : ℕ) :
    redFlag comps i = true ↔ ∃ c ∈ comps, i ∈ c := by
  unfold redFlag
  rw [List.any_eq_true]
  simp

theorem redundantComps_true (sim : String → String → ℚ) (po : List String)
    (ds : List Rec) (thr : ℤ) :
    redundantComps sim po true ds thr =
      (discover (edgeB sim po ds thr) ds.length (startsList ds)).2 := by
  simp [redundantComps]

theorem redundantComps_inv {sim : String → String → ℚ}
    (hsym : ∀ a b, sim a b = sim b a) (po : List String) (ds : List Rec) (thr : ℤ) :
    DiscInv (edgeB sim po ds thr) ds.length
      (discover (edgeB sim po ds thr) ds.length (startsList ds)) :=
  (discover_fold_inv (fun u v => edgeB_symm hsym po ds thr u v)
    (edgeB_irrefl sim po ds thr) (fun _ _ h => edgeB_bound h)
    (startsList ds) (∅, []) (discInv_empty _ _)).1

theorem redFlag_iff_neighbor {sim : String → String → ℚ}
    (hsym : ∀ a b, sim a b = sim b a) (po : List String) (ds : List Rec) (thr : ℤ)
    (i : ℕ) :
    redFlag (redundantComps sim po true ds thr) i = true ↔
      ∃ j, edgeB sim po ds thr i j = true := by
  rw [redundantComps_true, redFlag_iff_exists]
  exact discover_mem_iff (fun u v => edgeB_symm hsym po ds thr u v)
    (edgeB_irrefl sim po ds thr) (fun _ _ h => edgeB_bound h)
    (fun _ _ h => mem_startsList h) i

/-- C1: with a title column, a row is flagged Redundant exactly when some
other row of its (AreaKey, Year) cluster is connected to it in the graph whose
edges demand token-set similarity at least round(s*100) of the
generic-phrase-stripped titles and at least 2 qualifying shared tokens
(equivalently, when it lies in a connected component of size at least 2);
connected rows share a group id, rows of different components get different
ids, peer titles are recorded, and without a title column nothing is flagged.
The scorer is abstract and assumed symmetric, which the real
token-set ratio is. -/
theorem C1_redundant_component_characterization
    (sim : String → String → ℚ) (hsym : ∀ a b, sim a b = sim b a)
    (po : List String) (ds : List Rec) (s : ℚ)
    (_hs : 2 / 5 ≤ s ∧ s ≤ 19 / 20) :
    (∀ i, redFlag (redundantComps sim po true ds (pyRound (s * 100))) i = true ↔
        ∃ j, j ≠ i ∧ redConn sim po ds (pyRound (s * 100)) i j)
    ∧ (∀ i j, redConn sim po ds (pyRound (s * 100)) i j →
        redGid (redundantComps sim po true ds (pyRound (s * 100))) i =
          redGid (redundantComps sim po true ds (pyRound (s * 100))) j)
    ∧ (∀ i j, redFlag (redundantComps sim po true ds (pyRound (s * 100))) i = true →
        redFlag (redundantComps sim po true ds (pyRound (s * 100))) j = true →
        ¬ redConn sim po ds (pyRound (s * 100)) i j →
        redGid (redundantComps sim po true ds (pyRound (s * 100))) i ≠
          redGid (redundantComps sim po true ds (pyRound (s * 100))) j)
    ∧ (∀ c ∈ redundantComps sim po true ds (pyRound (s * 100)), ∀ i ∈ c, ∀ j ∈ c,
        j ≠ i →
        (recAt ds j).title ∈ redPeers ds (redundantComps sim po true ds (pyRound (s * 100))) i)
    ∧ (∀ i, redFlag (redundantComps sim po false ds (pyRound (s * 100))) i = false) := by
  have hinv := redundantComps_inv hsym po ds (pyRound (s * 100))
  refine ⟨?_, ?_, ?_, ?_, ?_⟩
  · intro i
    rw [redFlag_iff_neighbor hsym po ds (pyRound (s * 100)) i]
    constructor
    · rintro ⟨j, hE⟩
      exact ⟨j, (edgeB_ne hE).symm, Relation.ReflTransGen.single hE⟩
    · rintro ⟨j, hji, hconn⟩
      rcases Relation.ReflTransGen.cases_head hconn with heq | ⟨z, hz, -⟩
      · exact absurd heq.symm hji
      · exact ⟨z, hz⟩
  · intro i j hconn
    rw [redundantComps_true] at *
    by_cases hf : ∃ c ∈ (discover (edgeB sim po ds (pyRound (s * 100))) ds.length (startsList ds)).2, i ∈ c
    · obtain ⟨c, hc, hic⟩ := hf
      have hjc : j ∈ c := (hinv.comps_conn c hc i hic j).mpr hconn
      obtain ⟨kc, hkc⟩ := List.mem_iff_get?.mp hc
      unfold redGid
      rw [gidIdx_of_mem hinv.comps_disj hkc hic, gidIdx_of_mem hinv.comps_disj hkc hjc]
    · have hfj : ¬ ∃ c ∈ (discover (edgeB sim po ds (pyRound (s * 100))) ds.length (startsList ds)).2, j ∈ c := by
        rintro ⟨c, hc, hjc⟩
        exact hf ⟨c, hc, (hinv.comps_conn c hc j hjc i).mpr
          (reachE_symm (fun u v => edgeB_symm hsym po ds (pyRound (s * 100)) u v) hconn)⟩
      have hni : gidIdx i (discover (edgeB sim po ds (pyRound (s * 100))) ds.length (startsList ds)).2 = none := by
        rw [← Option.not_isSome_iff_eq_none]
        rw [gidIdx_isSome_iff]
        exact hf
      have hnj : gidIdx j (discover (edgeB sim po ds (pyRound (s * 100))) ds.length (startsList ds)).2 = none := by
        rw [← Option.not_isSome_iff_eq_none]
        rw [gidIdx_isSome_iff]
        exact hfj
      unfold redGid
      rw [hni, hnj]
  · intro i j hfi hfj hnconn heq
    rw [redundantComps_true] at *
    obtain ⟨ci, hci, hici⟩ := (redFlag_iff_exists _ i).mp hfi
    obtain ⟨cj, hcj, hjcj⟩ := (redFlag_iff_exists _ j).mp hfj
    obtain ⟨ki, hki⟩ := List.mem_iff_get?.mp hci
    obtain ⟨kj, hkj⟩ := List.mem_iff_get?.mp hcj
    have hgi := gidIdx_of_mem hinv.comps_disj hki hici
    have hgj := gidIdx_of_mem hinv.comps_disj hkj hjcj
    unfold redGid at heq
    rw [hgi, hgj] at heq
    simp only [Option.map_some', Option.some.injEq] at heq
    have hkk : ki = kj := by omega
    subst hkk
    rw [hki] at hkj
    injection hkj with hcc
    subst hcc
    exact hnconn ((hinv.comps_conn ci hci i hici j).mp hjcj)
  · intro c hc i hic j hjc hji
    rw [redundantComps_true] at *
    unfold redPeers
    have hfs : (List.find? (fun c => decide (i ∈ c))
        (discover (edgeB sim po ds (pyRound (s * 100))) ds.length (startsList ds)).2).isSome = true :=
      List.find?_isSome.mpr ⟨c, hc, by simpa using hic⟩
    rcases hfind : List.find? (fun c => decide (i ∈ c))
        (discover (edgeB sim po ds (pyRound (s * 100))) ds.length (startsList ds)).2 with _ | c'
    · rw [hfind] at hfs
      simp at hfs
    · have hic' : i ∈ c' := by simpa using List.find?_some hfind
      have hc' := List.mem_of_find?_eq_some hfind
      have hcc : c' = c := mem_unique_of_pairwise_disjoint hinv.comps_disj hc' hc hic' hic
      subst hcc
      apply List.mem_map.mpr
      refine ⟨j, ?_, rfl⟩
      rw [Finset.mem_sort]
      exact Finset.mem_erase.mpr ⟨hji, hjc⟩
  · intro i
    simp [redundantComps, redFlag]

def simZero : String → String → ℚ := fun _ _ => 0

theorem C1_redundant_component_characterization_witness :
    ((∀ a b, simZero a b = simZero b a) ∧ (2 / 5 ≤ (7 / 10 : ℚ) ∧ (7 / 10 : ℚ) ≤ 19 / 20)) ∧
      (∀ i, redFlag (redundantComps simZero GENERIC_PHRASES true [] (pyRound (7 / 10 * 100))) i = true ↔
        ∃ j, j ≠ i ∧ redConn simZero GENERIC_PHRASES [] (pyRound (7 / 10 * 100)) i j) :=
  ⟨⟨fun _ _ => rfl, by norm_num⟩,
    (C1_redundant_component_characterization simZero (fun _ _ => rfl) GENERIC_PHRASES []
      (7 / 10) (by norm_num)).1⟩

/-- C5: raising the similarity parameter can only shrink the set of
Redundant-flagged rows, so the flagged count cannot increase. -/
theorem C5_redundant_threshold_monotone
    (sim : String → String → ℚ) (hsym : ∀ a b, sim a b = sim b a)
    (po : List String) (tc : Bool) (ds : List Rec) (s1 s2 : ℚ)
    (_hr : 2 / 5 ≤ s1 ∧ s2 ≤ 19 / 20) (h12 : s1 ≤ s2) :
    (∀ i, redFlag (redundantComps sim po tc ds (pyRound (s2 * 100))) i = true →
        redFlag (redundantComps sim po tc ds (pyRound (s1 * 100))) i = true)
    ∧ (List.range ds.length).countP
        (fun i => redFlag (redundantComps sim po tc ds (pyRound (s2 * 100))) i) ≤
      (List.range ds.length).countP
        (fun i => redFlag (redundantComps sim po tc ds (pyRound (s1 * 100))) i) := by
  have hthr : pyRound (s1 * 100) ≤ pyRound (s2 * 100) :=
    pyRound_mono (mul_le_mul_of_nonneg_right h12 (by norm_num))
  have hmain : ∀ i, redFlag (redundantComps sim po tc ds (pyRound (s2 * 100))) i = true →
      redFlag (redundantComps sim po tc ds (pyRound (s1 * 100))) i = true := by
    intro i hf
    cases tc with
    | false => simp [redundantComps, redFlag] at hf
    | true =>
      rw [redFlag_iff_neighbor hsym po ds (pyRound (s2 * 100)) i] at hf
      rw [redFlag_iff_neighbor hsym po ds (pyRound (s1 * 100)) i]
      obtain ⟨j, hE⟩ := hf
      exact ⟨j, edgeB_mono hthr hE⟩
  exact ⟨hmain, List.countP_mono_left (fun i _ => hmain i)⟩

theorem C5_redundant_threshold_monotone_witness :
    ((∀ a b, simZero a b = simZero b a) ∧ (2 / 5 ≤ (1 / 2 : ℚ) ∧ (7 / 10 : ℚ) ≤ 19 / 20) ∧
      ((1 / 2 : ℚ) ≤ 7 / 10)) ∧
      (∀ i, redFlag (redundantComps simZero GENERIC_PHRASES true [] (pyRound (7 / 10 * 100))) i = true →
        redFlag (redundantComps simZero GENERIC_PHRASES true [] (pyRound (1 / 2 * 100))) i = true) :=
  ⟨⟨fun _ _ => rfl, by norm_num, by norm_num⟩,
    (C5_redundant_threshold_monotone simZero (fun _ _ => rfl) GENERIC_PHRASES true []
      (1 / 2) (7 / 10) (by norm_num) (by norm_num)).1⟩

/-- C10 (implicit): a row is flagged Redundant exactly when its group id is
set, and the ids assigned in a run are exactly the consecutive integers
1..G where G is the number of discovered components. -/
theorem C10_group_ids_consecutive
    (sim : String → String → ℚ) (hsym : ∀ a b, sim a b = sim b a)
    (po : List String) (tc : Bool) (ds : List Rec) (thr : ℤ) :
    (∀ i, redFlag (redundantComps sim po tc ds thr) i =
        (redGid (redundantComps sim po tc ds thr) i).isSome)
    ∧ (∀ g, (∃ i, redGid (redundantComps sim po tc ds thr) i = some g) ↔
        1 ≤ g ∧ g ≤ (redundantComps sim po tc ds thr).length) := by
  constructor
  · intro i
    rw [Bool.eq_iff_iff, redFlag_iff_exists]
    unfold redGid
    have hmap : ((gidIdx i (redundantComps sim po tc ds thr)).map (· + 1)).isSome =
        (gidIdx i (redundantComps sim po tc ds thr)).isSome := by
      cases gidIdx i (redundantComps sim po tc ds thr) <;> rfl
    rw [hmap, gidIdx_isSome_iff]
  · intro g
    cases tc with
    | false =>
      simp only [redundantComps, Bool.false_eq_true, if_false, redGid, gidIdx]
      simp only [Option.map_none', List.length_nil]
      constructor
      · rintro ⟨i, hi⟩
        exact absurd hi (by simp)
      · rintro ⟨h1, h2⟩
        omega
    | true =>
      have hinv := redundantComps_inv hsym po ds thr
      rw [redundantComps_true]
      constructor
      · rintro ⟨i, hg⟩
        unfold redGid at hg
        rcases hk : gidIdx i (discover (edgeB sim po ds thr) ds.length (startsList ds)).2 with _ | k
        · rw [hk] at hg; simp at hg
        · rw [hk] at hg
          simp only [Option.map_some', Option.some.injEq] at hg
          obtain ⟨c, hcg, -⟩ := gidIdx_some hk
          have hlt := (List.get?_eq_some.mp hcg).1
          omega
      · rintro ⟨hg1, hg2⟩
        have hlt : g - 1 < (discover (edgeB sim po ds thr) ds.length (startsList ds)).2.length := by
          omega
        have hcg : (discover (edgeB sim po ds thr) ds.length (startsList ds)).2.get? (g - 1) =
            some ((discover (edgeB sim po ds thr) ds.length (startsList ds)).2.get ⟨g - 1, hlt⟩) :=
          List.get?_eq_get hlt
        have hcmem : (discover (edgeB sim po ds thr) ds.length (startsList ds)).2.get ⟨g - 1, hlt⟩ ∈
            (discover (edgeB sim po ds thr) ds.length (startsList ds)).2 :=
          List.get?_mem hcg
        have hcard := hinv.comps_card _ hcmem
        obtain ⟨i, hi⟩ := Finset.card_pos.mp
          (show 0 < ((discover (edgeB sim po ds thr) ds.length (startsList ds)).2.get
            ⟨g - 1, hlt⟩).card by omega)
        refine ⟨i, ?_⟩
        unfold redGid
        rw [gidIdx_of_mem hinv.comps_disj hcg hi]
        simp only [Option.map_some', Option.some.injEq]
        omega

theorem C10_group_ids_consecutive_witness :
    (∀ a b, simZero a b = simZero b a) ∧
      (∀ i, redFlag (redundantComps simZero GENERIC_PHRASES true [] 70) i =
        (redGid (redundantComps simZero GENERIC_PHRASES true [] 70) i).isSome) :=
  ⟨fun _ _ => rfl,
    (C10_group_ids_consecutive simZero (fun _ _ => rfl) GENERIC_PHRASES true [] 70).1⟩

/-! ## Never-Ending stage and the full engine (flags.py 292-366)

The recurring-title scan iterates `df.groupby("__AreaKey", dropna=False)` with
the loop target `(_, _), sub`: the group key is a scalar string, so Python
tuple-unpacks it and raises `ValueError` unless the key is exactly two
characters long.  The embedding therefore returns `Except`: an error whenever
a title column resolved, the frame is nonempty, and some area key does not
have length 2. -/

/-- `long_dur`: preprocessed duration (missing as -1) at or above the
threshold. -/
def longDur (cfg : Config) (r : Rec) : Bool :=
  decide (cfg.neverEndingDays ≤ r.durationDays.getD (-1))

/-- The distinct `__AreaKey` values in sorted group order. -/
def areaKeys (ds : List Rec) : List String :=
  List.insertionSort (fun a b => strLe a b = true) ((ds.map Rec.areaKey).dedup)

/-- The row indices of one area group, in original order. -/
def areaGroup (ds : List Rec) (k : String) : List ℕ :=
  (List.range ds.length).filter (fun i => decide ((recAt ds i).areaKey = k))

/-- `len(years)` of the recurring test for row `i` within its area group: the
number of distinct years spanned by the rows whose stripped titles score at
least 70 against this row's stripped title.  Rows with a missing year or
title are skipped (count 0). -/
def recurringYearCount (sim : String → String → ℚ) (po : List String) (ds : List Rec)
    (members : List ℕ) (i : ℕ) : ℕ :=
  match (recAt ds i).year, (recAt ds i).titleNA with
  | some _, false =>
    (((members.filter (fun j =>
        decide ((70 : ℚ) ≤ sim (stripGeneric po (recAt ds j).title)
          (stripGeneric po (recAt ds i).title)))).filterMap
            (fun j => (recAt ds j).year)).dedup).length
  | _, _ => 0

/-- The recurring test for row `i`: similar titles span at least 3 distinct
years. -/
def recurringInGroup (sim : String → String → ℚ) (po : List String) (ds : List Rec)
    (members : List ℕ) (i : ℕ) : Bool :=
  decide (3 ≤ recurringYearCount sim po ds members i)

/-- `FLAG_NeverEnding` for every row, or the `ValueError` of the scalar-key
tuple unpack.  The code raises at the first group key of length other than 2;
the embedding checks all keys up front, which yields the same result since a
raise anywhere discards the whole computation. -/
def neverEndingFlags (sim : String → String → ℚ) (po : List String) (ds : List Rec)
    (cm : ColMap) (cfg : Config) : Except String (List Bool) :=
  if cm.titleCol then
    if (areaKeys ds).all (fun k => k.length = 2) then
      .ok ((List.range ds.length).map (fun i =>
        longDur cfg (recAt ds i) ||
          recurringInGroup sim po ds (areaGroup ds (recAt ds i).areaKey) i))
    else
      .error "ValueError: too many values to unpack"
  else
    .ok (ds.map (longDur cfg))

/-- `use_km`: pick cost-per-km when it has at least as many usable values. -/
def useKm (ds : List Rec) : Bool :=
  decide (ds.countP (fun r => r.costPerSqKm.isSome) ≤ ds.countP (fun r => r.costPerKm.isSome))

/-- The chosen cost metric of one record. -/
def metricOf (ds : List Rec) (r : Rec) : Option ℚ :=
  if useKm ds then r.costPerKm else r.costPerSqKm

/-- The chosen metric column. -/
def metricCol (ds : List Rec) : List (Option ℚ) := ds.map (metricOf ds)

/-- Inserts a thousands separator into a reversed digit list: the input is the
decimal digits least-significant first, `k` the position of the head, and a
comma is placed after every third digit. -/
def commaRev : List Char → ℕ → List Char
  | [], _ => []
  | c :: cs, k =>
    if k % 3 = 0 ∧ k ≠ 0 then ',' :: c :: commaRev cs (k + 1)
    else c :: commaRev cs (k + 1)

/-- Renders an integer with comma thousands separators, as Python does for the
integral part of a `,.0f` conversion. -/
def fmtIntComma (m : ℤ) : String :=
  (if m < 0 then "-" else "") ++
    String.mk ((commaRev (toString m.natAbs).data.reverse 0).reverse)

/-- Round-half-to-even over the reals, mirroring `pyRound`; used to model the
`,.0f` float conversion, whose rounding mode is round-half-even. -/
noncomputable def pyRoundR (x : ℝ) : ℤ :=
  let f := ⌊x⌋
  let r := x - (f : ℝ)
  if r < 1 / 2 then f
  else if 1 / 2 < r then f + 1
  else if 2 ∣ f then f else f + 1

/-- Models the Python conversion `,.0f` applied to the exact real value:
round half to even, then group with commas.  (The float `-0.0` region and
`nan`, which Python renders as `-0` and `nan`, do not arise here: the model
keeps exact reals, and the code only formats the bounds it also compares
against, so the claims below are unaffected.) -/
noncomputable def fmtCommaF0 (x : ℝ) : String := fmtIntComma (pyRoundR x)

/-- `Reason_Redundant` of row `i` (flags.py 221): rows inside a discovered
component name the component size, all other rows get the empty string. -/
def redReason (comps : List (Finset ℕ)) (i : ℕ) : String :=
  match comps.find? (fun c => decide (i ∈ c)) with
  | some c => "Similar title(s) within same area-year; " ++ toString c.card ++ " in group"
  | none => ""

/-- `Reason_PotentialGhost` (flags.py 281-290): the semicolon join of the
per-condition labels that fired, with the target-overrun label only present
when `use_target_overrun and target_col`. -/
def ghostReason (ds : List Rec) (cm : ColMap) (cfg : Config) (now : ℤ) (r : Rec) : String :=
  String.intercalate "; " (([
    if completeish cm r && !hasEnd cm r then
      "Status complete/≈100% but no completion date" else "",
    if completeish cm r && veryShort cm r && highAmt ds cfg r then
      "Completion < 7 days with high amount" else "",
    if longOpen cm now r && !hasEnd cm r then
      ">2 years since start with no completion date" else "",
    if noDates cm r && highAmt ds cfg r then
      "No dates recorded despite high amount" else ""] ++
    (if cfg.useTargetOverrun && cm.targetCol then
      [if overrun cm cfg now r then
        "Target completion + " ++ toString cfg.graceDays ++ "d grace elapsed; not completed"
      else ""]
    else [])).filter (fun s => !s.isEmpty))

/-- `Reason_NeverEnding` of row `i` (flags.py 314-316): the long-duration
label concatenated with, for recurring rows, a semicolon and the
distinct-year count label; the recurring part exists only when a title
column resolved. -/
def neverReason (sim : String → String → ℚ) (po : List String) (ds : List Rec)
    (cm : ColMap) (cfg : Config) (i : ℕ) : String :=
  (if longDur cfg (recAt ds i) then
    "Duration ≥ " ++ toString cfg.neverEndingDays ++ " days" else "") ++
  (if cm.titleCol && recurringInGroup sim po ds (areaGroup ds (recAt ds i).areaKey) i then
    "; Similar titles across " ++
      toString (recurringYearCount sim po ds (areaGroup ds (recAt ds i).areaKey) i) ++
      " years in same area"
  else "")

/-- `unit` of the costly stage. -/
def costUnit (ds : List Rec) : String := if useKm ds then "₱/km" else "₱/sq-km"

/-- `Reason_Costly` (flags.py 342-344): flagged rows name the unit and the two
formatted bounds, other rows get the empty string.  The bounds rendered are
exactly the `low_t` and `high_t` the flag itself compares against
(`specCostlyLow` and `specCostlyHigh`, shown equivalent by `C3`). -/
noncomputable def costReason (ds : List Rec) (cfg : Config) (r : Rec) : String :=
  if costlyFlag (metricCol ds) cfg.costIqrK (metricOf ds r) then
    "Outlier by IQR in " ++ costUnit ds ++
      " (low<" ++ fmtCommaF0 (specCostlyLow (metricCol ds) cfg.costIqrK) ++
      " / high>" ++ fmtCommaF0 (specCostlyHigh (metricCol ds) cfg.costIqrK) ++ ")"
  else ""

/-- One output row of the Flag Engine: the four flag booleans, the redundant
group id, and the four reason strings. -/
structure FlagRow where
  redundant : Bool
  gid : Option ℕ
  ghost : Bool
  neverEnding : Bool
  costly : Bool
  reasonRedundant : String
  reasonGhost : String
  reasonNeverEnding : String
  reasonCostly : String
deriving DecidableEq, Inhabited

instance exceptDecEq {ε α : Type} [DecidableEq ε] [DecidableEq α] :
    DecidableEq (Except ε α) := fun a b =>
  match a, b with
  | .error e, .error f =>
    if h : e = f then isTrue (by rw [h]) else isFalse (by intro hc; cases hc; exact h rfl)
  | .ok x, .ok y =>
    if h : x = y then isTrue (by rw [h]) else isFalse (by intro hc; cases hc; exact h rfl)
  | .error _, .ok _ => isFalse (by intro hc; cases hc)
  | .ok _, .error _ => isFalse (by intro hc; cases hc)

/-- `compute_project_flags_fast`: redundant, ghost, never-ending (which can
raise), then costly, each with its reason string. -/
noncomputable def computeProjectFlagsFast (sim : String → String → ℚ) (po : List String)
    (ds : List Rec) (cm : ColMap) (cfg : Config) (now : ℤ) : Except String (List FlagRow) :=
  match neverEndingFlags sim po ds cm cfg with
  | .error e => .error e
  | .ok nev =>
    .ok ((List.range ds.length).map (fun i =>
      { redundant := redFlag (redundantComps sim po cm.titleCol ds
          (pyRound (cfg.redundantSimilarity * 100))) i
        gid := redGid (redundantComps sim po cm.titleCol ds
          (pyRound (cfg.redundantSimilarity * 100))) i
        ghost := ghostFlag ds cm cfg now (recAt ds i)
        neverEnding := nev.getD i false
        costly := costlyFlag (metricCol ds) cfg.costIqrK (metricOf ds (recAt ds i))
        reasonRedundant := redReason (redundantComps sim po cm.titleCol ds
          (pyRound (cfg.redundantSimilarity * 100))) i
        reasonGhost := ghostReason ds cm cfg now (recAt ds i)
        reasonNeverEnding := neverReason sim po ds cm cfg i
        reasonCostly := costReason ds cfg (recAt ds i) }))

def c4Rec : Rec :=
  { title := "Construction of Dike", areaKey := "region-a, province-b", year := some 2023 }

def c4Ds : List Rec := [c4Rec]

def c4Cm : ColMap := { titleCol := true }

/-- C4 (code bug): the Flag Engine does not even complete on a typical
dataset.  With a title column and the area key "region-a, province-b" (20
characters), the recurring-title scan's tuple unpack of the scalar group key
raises ValueError, so no record receives any flag value, for every scorer,
phrase order, configuration and evaluation time. -/
theorem C4_flag_engine_raises_on_non_2char_area_key
    (sim : String → String → ℚ) (po : List String) (cfg : Config) (now : ℤ) :
    computeProjectFlagsFast sim po c4Ds c4Cm cfg now =
      .error "ValueError: too many values to unpack" := rfl

def c6Rec : Rec := { startDate := some 0 }

def c6Ds : List Rec := [c6Rec]

def c6Cm : ColMap := { startCol := true }

/-- C6, counterexample: the Flag Engine output is not a function of dataset
and configuration alone.  A run 700 days after the recorded start and a run
800 days after it give the same record a different PotentialGhost flag and a
different ghost reason string (the long-open rule reads the wall clock), and
the generic-phrase stripping depends on the iteration order of the
`GENERIC_PHRASES` set, which Python does not fix across processes. -/
theorem C6_not_run_invariant :
    computeProjectFlagsFast simZero GENERIC_PHRASES c6Ds c6Cm cfg0 700 ≠
        computeProjectFlagsFast simZero GENERIC_PHRASES c6Ds c6Cm cfg0 800 ∧
      stripGeneric ["flood control", "flood control structure"] "flood control structure" ≠
        stripGeneric ["flood control structure", "flood control"] "flood control structure" := by
  constructor
  · decide
  · decide

/-- C6 (amended): the Flag Engine is deterministic once the evaluation time
and the phrase iteration order are fixed along with input and configuration:
two executions that agree on all of them produce identical flag values,
identical reason strings and identical group ids (`FlagRow` carries all
nine output fields). -/
theorem C6_deterministic_given_time_and_order
    (sim : String → String → ℚ) (po po' : List String) (ds : List Rec) (cm : ColMap)
    (cfg : Config) (now now' : ℤ) (htime : now = now') (horder : po = po') :
    computeProjectFlagsFast sim po ds cm cfg now =
      computeProjectFlagsFast sim po' ds cm cfg now' := by
  subst htime
  subst horder
  rfl

theorem C6_deterministic_given_time_and_order_witness :
    ((700 : ℤ) = 700 ∧ GENERIC_PHRASES = GENERIC_PHRASES) ∧
      computeProjectFlagsFast simZero GENERIC_PHRASES c6Ds c6Cm cfg0 700 =
        computeProjectFlagsFast simZero GENERIC_PHRASES c6Ds c6Cm cfg0 700 :=
  ⟨⟨rfl, rfl⟩, C6_deterministic_given_time_and_order simZero GENERIC_PHRASES GENERIC_PHRASES
    c6Ds c6Cm cfg0 700 700 rfl rfl⟩

/-! ## Contractor aggregation (`contractor.compute_contractor_indicators`)

The function re-detects the contractor column by pattern over the annotated
frame's column names, normalises the values with `str.strip()` only, and the
`Projects` count of a contractor is its group size.  The annotated frame is
modelled as a list of (column name, stringified values) pairs. -/

/-- Case-insensitive literal containment (a `re.search(..., re.I)` on a
pattern without metacharacters). -/
def containsPat (s pat : String) : Bool := strContains (lowerStr s) pat

/-- Matches the alternation branch `winning\s*bidder` at the head. -/
def startsWB (l : List Char) : Bool :=
  startsWithL "winning".data l &&
    startsWithL "bidder".data ((l.drop 7).dropWhile Char.isWhitespace)

def containsWBL : List Char → Bool
  | [] => false
  | c :: rest => startsWB (c :: rest) || containsWBL rest

/-- The contractor-column pattern
`(contractor|supplier|winning\s*bidder|provider|vendor)`, case-insensitive. -/
def contractorPattern (name : String) : Bool :=
  containsPat name "contractor" || containsPat name "supplier" ||
    containsWBL (lowerStr name).data || containsPat name "provider" ||
    containsPat name "vendor"

/-- Result of contractor aggregation, restricted to what the claims need:
either the no-column note or the table of (Contractor, Projects) rows. -/
inductive ContractorResult where
  | noColumn (note : String)
  | table (rows : List (String × ℕ))
deriving DecidableEq

/-- Values of a named column. -/
def colValues (ann : List (String × List String)) (c : String) : List String :=
  ((ann.find? (fun col => decide (col.1 = c))).map Prod.snd).getD []

/-- `compute_contractor_indicators`, Projects column: detect the contractor
column (first name matching the pattern), strip the values, group and count.
Group keys appear in sorted order as pandas emits them. -/
def computeContractorProjects (ann : List (String × List String)) : ContractorResult :=
  match (ann.map Prod.fst).find? contractorPattern with
  | none => .noColumn "No contractor column detected"
  | some cname =>
    .table ((List.insertionSort (fun a b => strLe a b = true)
        (((colValues ann cname).map stripStr).dedup)).map
      (fun k => (k, ((colValues ann cname).map stripStr).count k)))

/-- C7 (amended): with a detected contractor column, every table row's
Projects count equals the number of annotated records whose
whitespace-stripped contractor value equals that row's key, and every record
is counted under its stripped value.  Stripping ignores surrounding
whitespace but keeps letter case, so case-differing names stay separate
(see the counterexample). -/
theorem C7_contractor_projects_count (ann : List (String × List String))
    (cname : String) (rows : List (String × ℕ))
    (hdet : (ann.map Prod.fst).find? contractorPattern = some cname)
    (hrows : computeContractorProjects ann = .table rows) :
    (∀ p ∈ rows,
        p.2 = ((colValues ann cname).filter (fun v => decide (stripStr v = p.1))).length)
    ∧ ∀ v ∈ colValues ann cname, ∃ p ∈ rows, p.1 = stripStr v := by
  unfold computeContractorProjects at hrows
  rw [hdet] at hrows
  simp only [ContractorResult.table.injEq] at hrows
  subst hrows
  constructor
  · intro p hp
    obtain ⟨k, hk, rfl⟩ := List.mem_map.mp hp
    simp only
    rw [List.count_eq_countP, List.countP_map, List.countP_eq_length_filter]
    congr 1
  · intro v hv
    refine ⟨(stripStr v, ((colValues ann cname).map stripStr).count (stripStr v)), ?_, rfl⟩
    apply List.mem_map.mpr
    refine ⟨stripStr v, ?_, rfl⟩
    rw [(List.perm_insertionSort _ _).mem_iff, List.mem_dedup]
    exact List.mem_map.mpr ⟨v, hv, rfl⟩

def c7Ann : List (String × List String) := [("Contractor", ["ABC Corp", "abc corp"])]

theorem C7_contractor_projects_count_witness :
    ((c7Ann.map Prod.fst).find? contractorPattern = some "Contractor" ∧
        computeContractorProjects c7Ann = .table [("ABC Corp", 1), ("abc corp", 1)]) ∧
      (∀ p ∈ [("ABC Corp", 1), ("abc corp", 1)],
          p.2 = ((colValues c7Ann "Contractor").filter
            (fun v => decide (stripStr v = p.1))).length) ∧
        ∀ v ∈ colValues c7Ann "Contractor",
          ∃ p ∈ [("ABC Corp", 1), ("abc corp", 1)], p.1 = stripStr v :=
  ⟨⟨by decide, by decide⟩,
    C7_contractor_projects_count c7Ann "Contractor" [("ABC Corp", 1), ("abc corp", 1)]
      (by decide) (by decide)⟩

/-- C7, counterexample: two records whose contractor names differ only in
letter case are not counted under the same contractor.  The table keeps
"ABC Corp" and "abc corp" apart with one project each, while the number of
records whose case-and-whitespace-normalised value equals either key is 2. -/
theorem C7_case_sensitive_counterexample :
    computeContractorProjects c7Ann = .table [("ABC Corp", 1), ("abc corp", 1)] ∧
      ¬ (∀ p ∈ [("ABC Corp", 1), ("abc corp", 1)],
          p.2 = (["ABC Corp", "abc corp"].filter
            (fun v => decide (lowerStr (stripStr v) = lowerStr (stripStr p.1)))).length) := by
  constructor
  · decide
  · decide

/-- Column names appended by `preprocess_projects`, in insertion order. -/
def helperColsNames : List String :=
  ["__Year", "__Amount", "__AreaKey", "__DurationDays", "__TitleNorm", "__ContractorNorm",
   "__LengthKm", "__AreaSqKm", "__CostPerKm", "__CostPerSqKm", "__AccompPct"]

/-- Column names appended by `compute_project_flags_fast`, in insertion
order. -/
def flagColsNames : List String :=
  ["FLAG_RedundantSameAreaYear", "RedundantGroupID", "RedundantPeers", "Reason_Redundant",
   "FLAG_PotentialGhost", "Reason_PotentialGhost", "FLAG_NeverEnding", "Reason_NeverEnding",
   "CostRate", "CostRateUnit", "CostRatePercentile", "FLAG_Costly", "CostMetricUsed",
   "CostOutlierLow", "CostOutlierHigh", "Reason_Costly"]

/-- The `annotated_full` frame for a raw frame with no contractor-matching
column: the raw columns followed by the helper and flag columns.
`preprocess_projects` then sets every `__ContractorNorm` value to the empty
string.  Contractor aggregation reads only the column names and the detected
column's values, so the other appended columns carry empty strings here. -/
def annotatedNoContractor (raw : List (String × List String)) (n : ℕ) :
    List (String × List String) :=
  raw ++ helperColsNames.map (fun c => (c, List.replicate n "")) ++
    flagColsNames.map (fun c => (c, List.replicate n ""))

def c8Raw : List (String × List String) :=
  [("Project Title", ["a", "b"]), ("Year", ["2020", "2021"])]

/-- C8 (code bug): for a raw dataset with no contractor-matching column, the
annotated frame still contains the helper column `__ContractorNorm`, whose
name matches the contractor pattern; detection therefore never fails on
pipeline output, and instead of the specified empty table plus note the
aggregation returns a single-row table keyed by the empty string counting
every record. -/
theorem C8_helper_column_shadows_detection :
    ((annotatedNoContractor c8Raw 2).map Prod.fst).find? contractorPattern =
        some "__ContractorNorm" ∧
      computeContractorProjects (annotatedNoContractor c8Raw 2) = .table [("", 2)] ∧
      ContractorResult.table [("", 2)] ≠ .noColumn "No contractor column detected" := by
  refine ⟨by decide, by decide, by decide⟩

end DpwhAudit
